import Mathlib

/-!
# GitKraked: a verification development for `gitkraked.js`

The script extracts an `.asar` container next to itself, checks the version
recorded in the extracted `package.json` against the version of a patch
descriptor, applies find/replace patches to extracted files, renames
the container to `<container>.old`, repacks the workspace at the container's
path and removes the workspace.

Modelling decisions, all visible in the definitions below:

* JavaScript strings are lists of characters (`Str`); text is assumed to be
  well-formed Unicode and files hold text (the UTF-8 boundary of
  `readFileSync`/`writeFileSync` is not modelled).
* `path` is Node's POSIX flavour.
* The filesystem maps resolved absolute paths to entries (regular file or
  directory). Resolution is lexical: no symbolic links, case-sensitive names.
* The archive codec (`@electron/asar`) and `JSON.parse` are parameters
  (`Host`).
-/

namespace GitKraked

/-- JavaScript string values. -/
abbrev Str := List Char

/-! ## Node `path` (POSIX) -/

/-- Segments of a path between `/` separators (like `p.split('/')`). -/
def splitSlash : Str → List Str
  | [] => [[]]
  | c :: cs =>
    if c = '/' then [] :: splitSlash cs
    else
      match splitSlash cs with
      | [] => [[c]]
      | s :: ss => (c :: s) :: ss

/-- The path with its trailing `/` characters removed, reversed. -/
def trimmedRev (p : Str) : Str := p.reverse.dropWhile (· = '/')

/-- Last component of a path, trailing separators ignored. -/
def lastComponent (p : Str) : Str := ((trimmedRev p).takeWhile (· ≠ '/')).reverse

/-- Everything before the last component, up to and including the separator
that precedes it. -/
def front (p : Str) : Str := ((trimmedRev p).dropWhile (· ≠ '/')).reverse

/-- Node `path.extname`: from the last `.` of the last component to its end;
empty when there is no `.`, when the only `.` is the component's first
character, or when the component is `..`. -/
def extname (p : Str) : Str :=
  let base := lastComponent p
  let ext := '.' :: (base.reverse.takeWhile (· ≠ '.')).reverse
  if '.' ∉ base then []
  else if base.length = ext.length then []
  else if base = ['.', '.'] then []
  else ext

/-- Node `path.dirname`: the path up to (not including) the separator before
the last component; `.` or `/` when there is no such separator, and `//` is
kept for a path that starts with two separators right before its last
component. -/
def dirname (p : Str) : Str :=
  let f := front p
  if f = [] then (if p.head? = some '/' then ['/'] else ['.'])
  else if p.head? = some '/' ∧ f.length ≤ 2 then f
  else f.dropLast

/-- One segment of Node's `normalizeString`, on the stack of kept segments
(innermost first). -/
def normStep (allowAboveRoot : Bool) (stack : List Str) (seg : Str) : List Str :=
  if seg = [] ∨ seg = ['.'] then stack
  else if seg = ['.', '.'] then
    match stack with
    | [] => if allowAboveRoot then [['.', '.']] else []
    | top :: rest =>
      if top = ['.', '.'] then (if allowAboveRoot then seg :: stack else stack)
      else rest
  else seg :: stack

/-- Node `path.normalize`. -/
def normalize (p : Str) : Str :=
  if p = [] then ['.']
  else
    let isAbsolute : Bool := p.head? = some '/'
    let trailingSeparator : Bool := p.getLast? = some '/'
    let body := List.intercalate ['/']
      ((splitSlash p).foldl (normStep (!isAbsolute)) []).reverse
    if body = [] then
      (if isAbsolute then ['/'] else if trailingSeparator then ['.', '/'] else ['.'])
    else
      (if isAbsolute then ['/'] else []) ++ body ++ (if trailingSeparator then ['/'] else [])

/-- Node `path.join` of two arguments. -/
def join (a b : Str) : Str :=
  if a = [] ∧ b = [] then ['.']
  else normalize (if a = [] then b else if b = [] then a else a ++ '/' :: b)

/-! ## JavaScript string operations -/

/-- The method `String.prototype.toLowerCase`, on the ASCII letters. No other
character lowercases to a letter of `.asar` or `.json`, so comparisons of a
lowercased string with these two constants agree with JavaScript. -/
def toLowerCase (s : Str) : Str := s.map Char.toLower

/-- The method `String.prototype.indexOf`: position of the leftmost
occurrence. -/
def indexOf (pat : Str) : Str → Option Nat
  | [] => if pat = [] then some 0 else none
  | c :: t => if pat <+: c :: t then some 0 else (indexOf pat t).map (· + 1)

/-- The method `String.prototype.includes`. -/
def includes (data pat : Str) : Bool := (indexOf pat data).isSome

/-- The character U+0060, which introduces the "text before the match"
replacement pattern. -/
def graveAccent : Char := Char.ofNat 96

/-- The character U+0027, which introduces the "text after the match"
replacement pattern. -/
def apostrophe : Char := Char.ofNat 39

/-- ECMAScript `GetSubstitution` for a string pattern (no capture groups):
the replacement template is expanded at `$$`, `$&`, `$` + grave accent and
`$` + apostrophe; every other character is copied. -/
def getSubstitution (matched pre post : Str) : Str → Str
  | [] => []
  | c :: rest =>
    if c = '$' then
      match rest with
      | [] => ['$']
      | d :: rest2 =>
        if d = '$' then '$' :: getSubstitution matched pre post rest2
        else if d = '&' then matched ++ getSubstitution matched pre post rest2
        else if d = graveAccent then pre ++ getSubstitution matched pre post rest2
        else if d = apostrophe then post ++ getSubstitution matched pre post rest2
        else '$' :: d :: getSubstitution matched pre post rest2
    else c :: getSubstitution matched pre post rest

/-- The method `String.prototype.replace` with a string pattern and a string
replacement: only the leftmost occurrence is replaced. -/
def replace (data searchValue replaceValue : Str) : Str :=
  match indexOf searchValue data with
  | none => data
  | some pos =>
    let pre := data.take pos
    let post := data.drop (pos + searchValue.length)
    pre ++ getSubstitution searchValue pre post replaceValue ++ post

/-! ## Filesystem -/

/-- What a path can name. -/
inductive Entry where
  | file (content : Str)
  | dir
  deriving DecidableEq

/-- Filesystem state as the process sees it: the working directory and the
entry at every resolved path (segments listed innermost first). -/
structure FS where
  cwd : List Str
  entry : List Str → Option Entry

/-- One path segment during lexical resolution. -/
def resolveStep (stack : List Str) (seg : Str) : List Str :=
  if seg = [] ∨ seg = ['.'] then stack
  else if seg = ['.', '.'] then stack.tail
  else seg :: stack

/-- Resolved location of a path, relative paths starting from `cwd`. -/
def resolve (cwd : List Str) (p : Str) : List Str :=
  (splitSlash p).foldl resolveStep (if p.head? = some '/' then [] else cwd)

/-- Entry named by a path; the empty path names nothing. -/
def FS.lookup (fs : FS) (p : Str) : Option Entry :=
  if p = [] then none else fs.entry (resolve fs.cwd p)

/-- State with the entry at location `k` replaced. -/
def FS.set (fs : FS) (k : List Str) (e : Option Entry) : FS :=
  { fs with entry := fun k2 => if k2 = k then e else fs.entry k2 }

/-- Whether the parent of location `k` is a directory. -/
def FS.parentIsDir (fs : FS) (k : List Str) : Bool := fs.entry k.tail = some Entry.dir

/-- Node `fs.existsSync`. -/
def existsSync (fs : FS) (p : Str) : Bool := (fs.lookup p).isSome

/-- Node `fs.readFileSync(p, 'utf-8')`; `none` when it raises (nothing there,
or a directory). -/
def readFileSync (fs : FS) (p : Str) : Option Str :=
  match fs.lookup p with
  | some (Entry.file content) => some content
  | _ => none

/-- Node `fs.writeFileSync(p, data, 'utf-8')`; `none` when it raises (the path
is a directory, or a new file would have no parent directory). -/
def writeFileSync (fs : FS) (p : Str) (data : Str) : Option FS :=
  match fs.lookup p with
  | some Entry.dir => none
  | some (Entry.file _) => some (fs.set (resolve fs.cwd p) (some (Entry.file data)))
  | none =>
    if p ≠ [] ∧ fs.parentIsDir (resolve fs.cwd p)
    then some (fs.set (resolve fs.cwd p) (some (Entry.file data))) else none

/-- Node `fs.mkdirSync(p)`; `none` when it raises (something is already there,
or the parent is not a directory). -/
def mkdirSync (fs : FS) (p : Str) : Option FS :=
  if p = [] ∨ existsSync fs p ∨ ¬ fs.parentIsDir (resolve fs.cwd p) then none
  else some (fs.set (resolve fs.cwd p) (some Entry.dir))

/-- Node `fs.renameSync(oldPath, newPath)`; `none` when it raises. A regular
file replaces a regular file at the new path; a directory moves with
everything below it and only onto a free path. -/
def renameSync (fs : FS) (oldPath newPath : Str) : Option FS :=
  let src := resolve fs.cwd oldPath
  let dst := resolve fs.cwd newPath
  match fs.lookup oldPath with
  | none => none
  | some (Entry.file content) =>
    if newPath = [] ∨ fs.entry dst = some Entry.dir ∨ ¬ fs.parentIsDir dst then none
    else some ((fs.set src none).set dst (some (Entry.file content)))
  | some Entry.dir =>
    if newPath = [] ∨ (fs.entry dst).isSome ∨ ¬ fs.parentIsDir dst ∨ src <:+ dst then none
    else some { fs with entry := (fun k =>
      if dst <:+ k then fs.entry (k.take (k.length - dst.length) ++ src)
      else if src <:+ k then none
      else fs.entry k) }

/-- Node `fs.rmSync(p, { recursive: true, force: true })`: the entry and
everything below it are removed; a missing path is not an error. -/
def rmSync (fs : FS) (p : Str) : FS :=
  if p = [] then fs
  else { fs with entry := (fun k => if resolve fs.cwd p <:+ k then none else fs.entry k) }

/-! ## JSON values -/

/-- Values produced by `JSON.parse`. Numbers are identified by an integer code
(code `0` for zero): only truthiness and strict equality of numbers are
observed by the program. -/
inductive JVal where
  | null
  | bool (b : Bool)
  | num (code : Int)
  | str (s : Str)
  | arr (items : List JVal)
  | obj (members : List (Str × JVal))

/-- JavaScript truthiness (`!v` is its negation). -/
def truthy : JVal → Bool
  | JVal.null => false
  | JVal.bool b => b
  | JVal.num code => code ≠ 0
  | JVal.str s => s ≠ []
  | JVal.arr _ => true
  | JVal.obj _ => true

/-- Property read `v.key` on a truthy parsed value, `none` for `undefined`.
Only own members of objects are looked up, the last duplicate winning; this
matches JavaScript for the names the program reads (`version`, `patches`,
`file`, `find`, `replace`) on objects. -/
def getProp (v : JVal) (key : Str) : Option JVal :=
  match v with
  | JVal.obj members => (members.reverse.find? (fun m => m.1 = key)).map (fun m => m.2)
  | _ => none

/-- Strict equality `===` between two property reads of separately parsed
documents (so two objects or arrays are never identical). -/
def strictEq : Option JVal → Option JVal → Bool
  | none, none => true
  | some JVal.null, some JVal.null => true
  | some (JVal.bool a), some (JVal.bool b) => a = b
  | some (JVal.num a), some (JVal.num b) => a = b
  | some (JVal.str a), some (JVal.str b) => a = b
  | _, _ => false

/-- A patch entry: an object whose `file`, `find` and `replace` are strings. -/
structure Patch where
  file : Str
  find : Str
  replace : Str
  deriving DecidableEq

/-- Reading of one element of `patchData.patches` as a patch entry. -/
def toPatch (v : JVal) : Option Patch :=
  match getProp v ['f', 'i', 'l', 'e'], getProp v ['f', 'i', 'n', 'd'],
      getProp v ['r', 'e', 'p', 'l', 'a', 'c', 'e'] with
  | some (JVal.str file), some (JVal.str find), some (JVal.str replace) =>
    some ⟨file, find, replace⟩
  | _, _, _ => none

/-- How `for (const patch of patchData.patches)` sees the value. -/
inductive PatchEntries where
  /-- An array of well-typed patch entries (or the empty string, which
  iterates zero times and has length 0). -/
  | entries (ps : List Patch)
  /-- The loop raises a `TypeError` before touching any file: the value is
  not iterable, or it is a non-empty string (whose first character has no
  `file`). -/
  | raises
  /-- An array with an element that is not an object with string `file`,
  `find` and `replace`: dynamic coercions of such elements are outside this
  model. -/
  | illTyped

/-- Classification of `patchData.patches`. -/
def patchEntries : Option JVal → PatchEntries
  | some (JVal.arr items) =>
    if items.all (fun v => (toPatch v).isSome) then PatchEntries.entries (items.filterMap toPatch)
    else PatchEntries.illTyped
  | some (JVal.str []) => PatchEntries.entries []
  | _ => PatchEntries.raises

/-! ## The program -/

/-- External collaborators: `JSON.parse` (`none` when it raises) and the two
codec operations, each returning the filesystem it leaves and whether it
completed without raising. -/
structure Host where
  jsonParse : Str → Option JVal
  extractAll : FS → Str → Str → FS × Bool
  createPackage : FS → Str → Str → FS × Bool

/-- Console line written by `log(type, message)`. -/
def log (type message : String) : String := "[" ++ type ++ "] " ++ message

/-- Source `isFileType`. -/
def isFileType (filePath type : Str) : Bool := toLowerCase (extname filePath) = type

/-- Source `getDirectoryPath`. -/
def getDirectoryPath (filePath : Str) : Str := dirname filePath

/-- Source `parseJSONFile`: `some JVal.null` for the JavaScript `null` it
returns when the file is absent, `none` when reading or parsing raises. -/
def parseJSONFile (h : Host) (fs : FS) (filePath : Str) : Option JVal :=
  if !existsSync fs filePath then some JVal.null
  else
    match readFileSync fs filePath with
    | none => none
    | some data => h.jsonParse data

/-- How a call ends: it returns a value or raises. -/
inductive Completion (α : Type) where
  | returned (value : α)
  | raised
  deriving DecidableEq

/-- Result of `applyPatches`: how it ended and the filesystem it left. -/
structure PatchRun where
  completion : Completion Bool
  fs : FS

/-- Source `applyPatches`. -/
def applyPatches (basePath : Str) : List Patch → FS → PatchRun
  | [], fs => ⟨Completion.returned true, fs⟩
  | patch :: rest, fs =>
    let filePath := join basePath patch.file
    if !existsSync fs filePath then ⟨Completion.returned false, fs⟩
    else
      match readFileSync fs filePath with
      | none => ⟨Completion.raised, fs⟩
      | some data =>
        if !includes data patch.find then ⟨Completion.returned false, fs⟩
        else
          let newData := replace data patch.find patch.replace
          match writeFileSync fs filePath newData with
          | none => ⟨Completion.raised, fs⟩
          | some fs2 => applyPatches basePath rest fs2

/-- How a run of `main` ends. -/
inductive Status where
  | returned
  | raised
  /-- The run reached a patch list with an ill-typed element. -/
  | outsideModel
  deriving DecidableEq

/-- A run of `main`: how it ended, the console lines in order, and the
filesystem it left. -/
structure Run where
  status : Status
  logs : List String
  fs : FS

/-- The path `<dir of the container>/extracted`. -/
def extractPathOf (asarFilePath : Str) : Str :=
  join (getDirectoryPath asarFilePath) ['e', 'x', 't', 'r', 'a', 'c', 't', 'e', 'd']

/-- The workspace directory is created unless something exists there. -/
def ensureDir (fs : FS) (p : Str) : Option FS :=
  if !existsSync fs p then mkdirSync fs p else some fs

/-- The name `package.json`. -/
def packageJson : Str := ['p', 'a', 'c', 'k', 'a', 'g', 'e', '.', 'j', 's', 'o', 'n']

/-- The suffix `.old`. -/
def dotOld : Str := ['.', 'o', 'l', 'd']

/-- The extension `.asar`. -/
def dotAsar : Str := ['.', 'a', 's', 'a', 'r']

/-- The extension `.json`. -/
def dotJson : Str := ['.', 'j', 's', 'o', 'n']

/-- Source `main`, with `process.argv` and the filesystem as inputs. -/
def main (h : Host) (argv : List Str) (fs : FS) : Run :=
  match argv with
  | [_, _, asarFilePath, patchFilePath] =>
    if !isFileType asarFilePath dotAsar then
      ⟨Status.returned, [log "ERROR" "The first argument must be an .asar file."], fs⟩
    else if !isFileType patchFilePath dotJson then
      ⟨Status.returned, [log "ERROR" "The second argument must be a .json file."], fs⟩
    else
      let extractPath := extractPathOf asarFilePath
      match ensureDir fs extractPath with
      | none => ⟨Status.raised, [], fs⟩
      | some fs0 =>
        let logs1 := [log "INFO" "Extracting .asar file."]
        match h.extractAll fs0 asarFilePath extractPath with
        | (fs1, false) => ⟨Status.raised, logs1, fs1⟩
        | (fs1, true) =>
          let packageDataPath := join extractPath packageJson
          if !existsSync fs1 packageDataPath then
            ⟨Status.returned,
              logs1 ++ [log "ERROR" "package.json missing from extracted app.asar."], fs1⟩
          else
            match parseJSONFile h fs1 packageDataPath with
            | none => ⟨Status.raised, logs1, fs1⟩
            | some packageData =>
              match parseJSONFile h fs1 patchFilePath with
              | none => ⟨Status.raised, logs1, fs1⟩
              | some patchData =>
                if !truthy packageData || !truthy patchData then
                  ⟨Status.returned,
                    logs1 ++ [log "ERROR" "Couldn't read package or patch data."], fs1⟩
                else if !strictEq (getProp packageData ['v', 'e', 'r', 's', 'i', 'o', 'n'])
                    (getProp patchData ['v', 'e', 'r', 's', 'i', 'o', 'n']) then
                  ⟨Status.returned,
                    logs1 ++ [log "ERROR" "Version mismatch between app.asar and patch file."],
                    fs1⟩
                else
                  let logs2 := logs1 ++ [log "INFO" "Applying patches."]
                  match patchEntries (getProp patchData ['p', 'a', 't', 'c', 'h', 'e', 's']) with
                  | PatchEntries.raises => ⟨Status.raised, logs2, fs1⟩
                  | PatchEntries.illTyped => ⟨Status.outsideModel, logs2, fs1⟩
                  | PatchEntries.entries patches =>
                    match applyPatches extractPath patches fs1 with
                    | ⟨Completion.raised, fs2⟩ => ⟨Status.raised, logs2, fs2⟩
                    | ⟨Completion.returned false, fs2⟩ =>
                      ⟨Status.returned, logs2 ++ [log "ERROR" "Failed to apply patches."], fs2⟩
                    | ⟨Completion.returned true, fs2⟩ =>
                      match renameSync fs2 asarFilePath (asarFilePath ++ dotOld) with
                      | none => ⟨Status.raised, logs2, fs2⟩
                      | some fs3 =>
                        match h.createPackage fs3 extractPath asarFilePath with
                        | (fs4, false) => ⟨Status.raised, logs2, fs4⟩
                        | (fs4, true) =>
                          ⟨Status.returned,
                            logs2 ++ [log "SUCCESS"
                                ("Applied " ++ toString patches.length ++ " patches."),
                              log "INFO" "Cleaning up.", log "SUCCESS" "Done!"],
                            rmSync fs4 extractPath⟩
  | _ => ⟨Status.returned, [log "USAGE" "node gitkraked.js [app.asar] [patch.json]"], fs⟩

/-! ## Notions used to state the properties -/

/-- The test a patch must pass when its turn comes: its target is an existing
regular file whose content contains `find`. -/
def patchPasses (basePath : Str) (patch : Patch) (fs : FS) : Bool :=
  match readFileSync fs (join basePath patch.file) with
  | some data => includes data patch.find
  | none => false

/-- A filesystem given by a finite table of locations. -/
def tableFS (cwd : List Str) (table : List (List Str × Entry)) : FS :=
  ⟨cwd, fun k => (table.find? (fun row => row.1 = k)).map (fun row => row.2)⟩

/-- A workspace `ws` under the root holding one file `a.js`. -/
def oneFileFS (content : Str) : FS :=
  tableFS [] [([], Entry.dir), (["ws".toList], Entry.dir),
    (["a.js".toList, "ws".toList], Entry.file content)]

/-! ## A small concrete world, used to instantiate the statements -/

/-- Stand-in for `JSON.parse` that knows the listed documents and raises on
every other text. -/
def tableParse (table : List (Str × JVal)) (text : Str) : Option JVal :=
  (table.find? (fun row => row.1 = text)).map (fun row => row.2)

/-- A patch entry as a parsed JSON object. -/
def Patch.toJVal (p : Patch) : JVal :=
  JVal.obj [("file".toList, JVal.str p.file), ("find".toList, JVal.str p.find),
    ("replace".toList, JVal.str p.replace)]

/-- A patch descriptor as a parsed JSON object. -/
def descriptor (version : Str) (ps : List Patch) : JVal :=
  JVal.obj [("version".toList, JVal.str version),
    ("patches".toList, JVal.arr (ps.map Patch.toJVal))]

/-- Text of the demo `package.json`. -/
def packageText : Str := "\x7b\"version\":\"1.0\"\x7d".toList

/-- Patch descriptor text: one patch `X -> Y` on `a.js`. -/
def patchTextOne : Str :=
  "\x7b\"version\":\"1.0\",\"patches\":[\x7b\"file\":\"a.js\",\"find\":\"X\",\"replace\":\"Y\"\x7d]\x7d".toList

/-- Patch descriptor text: another version, no patches. -/
def patchTextOtherVersion : Str := "\x7b\"version\":\"2.0\",\"patches\":[]\x7d".toList

/-- Patch descriptor text: one patch that prepends `x` to `../app.asar`. -/
def patchTextContainer : Str :=
  "\x7b\"version\":\"1.0\",\"patches\":[\x7b\"file\":\"../app.asar\",\"find\":\"\",\"replace\":\"x\"\x7d]\x7d".toList

/-- Patch descriptor text: the patch on `../app.asar`, then a patch on the
missing file `b.js`. -/
def patchTextContainerThenMissing : Str :=
  "\x7b\"version\":\"1.0\",\"patches\":[\x7b\"file\":\"../app.asar\",\"find\":\"\",\"replace\":\"x\"\x7d,\x7b\"file\":\"b.js\",\"find\":\"A\",\"replace\":\"B\"\x7d]\x7d".toList

/-- Patch descriptor text: `X -> Y` on `a.js`, then a patch on the missing
file `b.js`. -/
def patchTextThenMissing : Str :=
  "\x7b\"version\":\"1.0\",\"patches\":[\x7b\"file\":\"a.js\",\"find\":\"X\",\"replace\":\"Y\"\x7d,\x7b\"file\":\"b.js\",\"find\":\"A\",\"replace\":\"B\"\x7d]\x7d".toList

/-- The patch `X -> Y` on `a.js`. -/
def patchXY : Patch := ⟨"a.js".toList, "X".toList, "Y".toList⟩

/-- The patch that prepends `x` to `../app.asar`. -/
def patchContainer : Patch := ⟨"../app.asar".toList, [], "x".toList⟩

/-- A patch on the file `b.js`, which the demo container does not hold. -/
def patchMissing : Patch := ⟨"b.js".toList, "A".toList, "B".toList⟩

/-- The demo host. Its parser knows the demo texts; its codec extracts
`package.json` and `a.js` (holding `X`) into the destination and packs a
container whose content records the workspace's `a.js`. -/
def demoHost : Host where
  jsonParse := tableParse
    [(packageText, JVal.obj [("version".toList, JVal.str "1.0".toList)]),
      (patchTextOne, descriptor "1.0".toList [patchXY]),
      (patchTextOtherVersion, descriptor "2.0".toList []),
      (patchTextContainer, descriptor "1.0".toList [patchContainer]),
      (patchTextContainerThenMissing, descriptor "1.0".toList [patchContainer, patchMissing]),
      (patchTextThenMissing, descriptor "1.0".toList [patchXY, patchMissing])]
  extractAll := fun fs archive dest =>
    match readFileSync fs archive with
    | none => (fs, false)
    | some _ =>
      (((fs.set (resolve fs.cwd (join dest packageJson)) (some (Entry.file packageText))).set
        (resolve fs.cwd (join dest "a.js".toList)) (some (Entry.file "X".toList))), true)
  createPackage := fun fs src dest =>
    match readFileSync fs (join src "a.js".toList) with
    | none => (fs, false)
    | some content =>
      (fs.set (resolve fs.cwd dest) (some (Entry.file ("PACKED:".toList ++ content))), true)

/-- The demo filesystem: `/home` is the working directory and holds the
container `app.asar` and the patch descriptor `patch.json` with the given
text. -/
def demoFS (patchText : Str) : FS :=
  tableFS ["home".toList] [([], Entry.dir), (["home".toList], Entry.dir),
    (["app.asar".toList, "home".toList], Entry.file "ORIGINAL".toList),
    (["patch.json".toList, "home".toList], Entry.file patchText)]

/-- The demo command line. -/
def demoArgv : List Str :=
  ["node".toList, "gitkraked.js".toList, "app.asar".toList, "patch.json".toList]

/-- The demo filesystem once the workspace directory exists. -/
def demoFS0 (patchText : Str) : FS :=
  (demoFS patchText).set ["extracted".toList, "home".toList] (some Entry.dir)

/-- The demo filesystem after the demo codec extracted the container. -/
def demoFS1 (patchText : Str) : FS :=
  (demoHost.extractAll (demoFS0 patchText) "app.asar".toList "extracted".toList).1

/-- The demo filesystem after the patch `X -> Y` was applied in the workspace
and the container was renamed to `app.asar.old`. -/
def demoFS3 : FS :=
  (renameSync (applyPatches "extracted".toList [patchXY] (demoFS1 patchTextOne)).fs
    "app.asar".toList "app.asar.old".toList).getD (demoFS1 patchTextOne)

/-- The demo filesystem after the demo codec packed the workspace. -/
def demoFS4 : FS :=
  (demoHost.createPackage demoFS3 "extracted".toList "app.asar".toList).1

/-! ## Basic facts about the filesystem operations -/

theorem set_cwd (fs : FS) (k : List Str) (e : Option Entry) : (fs.set k e).cwd = fs.cwd := rfl

theorem set_entry (fs : FS) (k k2 : List Str) (e : Option Entry) :
    (fs.set k e).entry k2 = if k2 = k then e else fs.entry k2 := rfl

theorem readFileSync_eq_some {fs : FS} {p data : Str} :
    readFileSync fs p = some data ↔ fs.lookup p = some (Entry.file data) := by
  unfold readFileSync
  split
  · rename_i c hc
    simp [hc]
  · rename_i hne
    constructor
    · intro h; cases h
    · intro h; exact absurd h (hne data)

theorem lookup_ne_nil {fs : FS} {p : Str} {e : Entry} (h : fs.lookup p = some e) : p ≠ [] := by
  intro hp
  simp [FS.lookup, hp] at h

theorem lookup_entry {fs : FS} {p : Str} {e : Entry} (h : fs.lookup p = some e) :
    fs.entry (resolve fs.cwd p) = some e := by
  have hp := lookup_ne_nil h
  simpa [FS.lookup, hp] using h

theorem lookup_set_self (fs : FS) {p : Str} (hp : p ≠ []) (e : Option Entry) :
    (fs.set (resolve fs.cwd p) e).lookup p = e := by
  unfold FS.lookup
  rw [if_neg hp]
  simp [FS.set]

/-- One iteration of the loop of `applyPatches`, by what the target path names. -/
theorem applyPatches_cons (basePath : Str) (patch : Patch) (rest : List Patch) (fs : FS) :
    applyPatches basePath (patch :: rest) fs =
      match fs.lookup (join basePath patch.file) with
      | none => ⟨Completion.returned false, fs⟩
      | some Entry.dir => ⟨Completion.raised, fs⟩
      | some (Entry.file data) =>
        if includes data patch.find then
          applyPatches basePath rest
            (fs.set (resolve fs.cwd (join basePath patch.file))
              (some (Entry.file (replace data patch.find patch.replace))))
        else ⟨Completion.returned false, fs⟩ := by
  rw [applyPatches]
  cases hl : fs.lookup (join basePath patch.file) with
  | none => simp [existsSync, hl]
  | some e =>
    cases e with
    | dir => simp [existsSync, hl, readFileSync]
    | file data =>
      simp only [existsSync, hl, readFileSync, writeFileSync]
      by_cases hi : includes data patch.find = true <;> simp [hi]

/-- A patch list split in two: the second part runs on the state the first
part left, unless the first part did not return `true`. -/
theorem applyPatches_append (basePath : Str) (ps qs : List Patch) (fs : FS) :
    applyPatches basePath (ps ++ qs) fs =
      if (applyPatches basePath ps fs).completion = Completion.returned true
      then applyPatches basePath qs (applyPatches basePath ps fs).fs
      else applyPatches basePath ps fs := by
  induction ps generalizing fs with
  | nil => simp [applyPatches]
  | cons p rest ih =>
    rw [List.cons_append, applyPatches_cons, applyPatches_cons]
    cases hl : fs.lookup (join basePath p.file) with
    | none => simp
    | some e =>
      cases e with
      | dir => simp
      | file data =>
        by_cases hi : includes data p.find = true
        · simp only [hi, if_true]
          exact ih _
        · simp [hi]

/-- The working directory is never changed by `applyPatches`. -/
theorem applyPatches_cwd (basePath : Str) (ps : List Patch) (fs : FS) :
    (applyPatches basePath ps fs).fs.cwd = fs.cwd := by
  induction ps generalizing fs with
  | nil => simp [applyPatches]
  | cons p rest ih =>
    rw [applyPatches_cons]
    cases hl : fs.lookup (join basePath p.file) with
    | none => simp
    | some e =>
      cases e with
      | dir => simp
      | file data =>
        by_cases hi : includes data p.find = true
        · simp only [hi, if_true]
          rw [ih]
          rfl
        · simp [hi]

/-- Every location either keeps its entry, or is the target of a patch and
held a regular file before and holds a regular file after. -/
theorem applyPatches_entry (basePath : Str) (ps : List Patch) (fs : FS) (k : List Str) :
    (applyPatches basePath ps fs).fs.entry k = fs.entry k ∨
      ((∃ p ∈ ps, k = resolve fs.cwd (join basePath p.file)) ∧
        (∃ d, fs.entry k = some (Entry.file d)) ∧
        ∃ d, (applyPatches basePath ps fs).fs.entry k = some (Entry.file d)) := by
  induction ps generalizing fs with
  | nil => simp [applyPatches]
  | cons p rest ih =>
    rw [applyPatches_cons]
    cases hl : fs.lookup (join basePath p.file) with
    | none => simp
    | some e =>
      cases e with
      | dir => simp
      | file data =>
        by_cases hi : includes data p.find = true
        · simp only [hi, if_true]
          have hent := lookup_entry hl
          rcases ih (fs.set (resolve fs.cwd (join basePath p.file))
              (some (Entry.file (replace data p.find p.replace)))) with h | ⟨⟨q, hq, hk⟩, ⟨d, hd⟩, hd2⟩
          · by_cases hk : k = resolve fs.cwd (join basePath p.file)
            · right
              refine ⟨⟨p, List.mem_cons_self _ _, hk⟩, ⟨data, by rw [hk]; exact hent⟩, ?_⟩
              rw [h, set_entry, if_pos hk]
              exact ⟨_, rfl⟩
            · left
              rw [h, set_entry, if_neg hk]
          · rw [set_cwd] at hk
            by_cases hk2 : k = resolve fs.cwd (join basePath p.file)
            · right
              exact ⟨⟨p, List.mem_cons_self _ _, hk2⟩, ⟨data, by rw [hk2]; exact hent⟩, hd2⟩
            · right
              rw [set_entry, if_neg hk2] at hd
              exact ⟨⟨q, List.mem_cons_of_mem _ hq, hk⟩, ⟨d, hd⟩, hd2⟩
        · simp [hi]

/-- A path that no patch targets names the same entry after the call. -/
theorem applyPatches_lookup_of_not_target (basePath : Str) (ps : List Patch) (fs : FS)
    (q : Str) (hq : ∀ p ∈ ps, resolve fs.cwd q ≠ resolve fs.cwd (join basePath p.file)) :
    (applyPatches basePath ps fs).fs.lookup q = fs.lookup q := by
  unfold FS.lookup
  rw [applyPatches_cwd]
  by_cases hnil : q = []
  · simp [hnil]
  · simp only [hnil, if_false]
    rcases applyPatches_entry basePath ps fs (resolve fs.cwd q) with h | ⟨⟨p, hp, hkp⟩, -, -⟩
    · exact h
    · exact absurd hkp (hq p hp)

/-- A location holds something after the call iff it did before, and holds a
directory after the call iff it did before. -/
theorem applyPatches_entry_kind (basePath : Str) (ps : List Patch) (fs : FS) (k : List Str) :
    ((applyPatches basePath ps fs).fs.entry k).isSome = (fs.entry k).isSome ∧
      ((applyPatches basePath ps fs).fs.entry k = some Entry.dir ↔
        fs.entry k = some Entry.dir) := by
  rcases applyPatches_entry basePath ps fs k with h | ⟨-, ⟨d, hd⟩, ⟨d2, hd2⟩⟩
  · rw [h]
    exact ⟨rfl, Iff.rfl⟩
  · rw [hd, hd2]
    simp

/-- A path exists after the call iff it existed before. -/
theorem applyPatches_existsSync (basePath : Str) (ps : List Patch) (fs : FS) (q : Str) :
    existsSync (applyPatches basePath ps fs).fs q = existsSync fs q := by
  unfold existsSync FS.lookup
  rw [applyPatches_cwd]
  by_cases hq : q = []
  · simp [hq]
  · simp only [hq, if_false]
    exact (applyPatches_entry_kind basePath ps fs _).1

/-! ## Single steps of `applyPatches` -/

theorem patchPasses_eq_true {basePath : Str} {patch : Patch} {fs : FS} :
    patchPasses basePath patch fs = true ↔
      ∃ data, fs.lookup (join basePath patch.file) = some (Entry.file data) ∧
        includes data patch.find = true := by
  unfold patchPasses
  cases hr : readFileSync fs (join basePath patch.file) with
  | none =>
    simp only [Bool.false_eq_true, false_iff]
    rintro ⟨data, hl, -⟩
    rw [readFileSync_eq_some.mpr hl] at hr
    cases hr
  | some data =>
    have hl := readFileSync_eq_some.mp hr
    constructor
    · intro h; exact ⟨data, hl, h⟩
    · rintro ⟨d, hd, hi⟩
      rw [hl] at hd
      cases hd
      exact hi

/-- A patch that fails its test on a target that is not a directory ends the
call with `false`, the state untouched. -/
theorem applyPatches_cons_fail {basePath : Str} {patch : Patch} {fs : FS} (rest : List Patch)
    (hfail : patchPasses basePath patch fs = false)
    (hdir : fs.lookup (join basePath patch.file) ≠ some Entry.dir) :
    applyPatches basePath (patch :: rest) fs = ⟨Completion.returned false, fs⟩ := by
  rw [applyPatches_cons]
  cases hl : fs.lookup (join basePath patch.file) with
  | none => rfl
  | some e =>
    cases e with
    | dir => exact absurd hl hdir
    | file data =>
      have hi : ¬ includes data patch.find = true := by
        intro hi
        have := patchPasses_eq_true.mpr ⟨data, hl, hi⟩
        rw [hfail] at this
        cases this
      simp [hi]

/-- A one-patch call returns `true` exactly when the patch passes its test. -/
theorem applyPatches_single_true (basePath : Str) (patch : Patch) (fs : FS) :
    (applyPatches basePath [patch] fs).completion = Completion.returned true ↔
      patchPasses basePath patch fs = true := by
  rw [applyPatches_cons, patchPasses_eq_true]
  cases hl : fs.lookup (join basePath patch.file) with
  | none => simp
  | some e =>
    cases e with
    | dir => simp
    | file data =>
      by_cases hi : includes data patch.find = true
      · simp [hi, applyPatches]
      · simp [hi]

/-- The first `k` patches return `true` exactly when each of them passed its
test on the state left by the ones before it. -/
theorem applyPatches_take_true (basePath : Str) (ps : List Patch) (fs : FS) (k : Nat)
    (hk : k ≤ ps.length) :
    (applyPatches basePath (ps.take k) fs).completion = Completion.returned true ↔
      ∀ j (hj : j < ps.length), j < k →
        patchPasses basePath (ps.get ⟨j, hj⟩) (applyPatches basePath (ps.take j) fs).fs = true := by
  induction k with
  | zero => simp [applyPatches]
  | succ k ih =>
    have hk2 : k < ps.length := hk
    have htake : ps.take (k + 1) = ps.take k ++ [ps.get ⟨k, hk2⟩] := by
      rw [List.take_succ]
      simp [List.getElem?_eq_getElem hk2]
    rw [htake, applyPatches_append]
    constructor
    · intro h j hj hjk
      by_cases hc : (applyPatches basePath (ps.take k) fs).completion = Completion.returned true
      · rw [if_pos hc] at h
        rcases Nat.lt_succ_iff_lt_or_eq.mp hjk with hlt | heq
        · exact (ih (Nat.le_of_lt hk2)).mp hc j hj hlt
        · subst heq
          exact (applyPatches_single_true _ _ _).mp h
      · rw [if_neg hc] at h
        exact absurd h hc
    · intro h
      have hc : (applyPatches basePath (ps.take k) fs).completion = Completion.returned true :=
        (ih (Nat.le_of_lt hk2)).mpr (fun j hj hjk => h j hj (Nat.lt_succ_of_lt hjk))
      rw [if_pos hc]
      exact (applyPatches_single_true _ _ _).mpr (h k hk2 (Nat.lt_succ_self k))

/-- The whole list returns `true` exactly when every patch passed its test on
the state left by the ones before it. -/
theorem applyPatches_true_iff (basePath : Str) (ps : List Patch) (fs : FS) :
    (applyPatches basePath ps fs).completion = Completion.returned true ↔
      ∀ j (hj : j < ps.length),
        patchPasses basePath (ps.get ⟨j, hj⟩)
          (applyPatches basePath (ps.take j) fs).fs = true := by
  have h := applyPatches_take_true basePath ps fs ps.length (Nat.le_refl _)
  rw [List.take_length] at h
  rw [h]
  constructor
  · intro h2 j hj; exact h2 j hj hj
  · intro h2 j hj _; exact h2 j hj

/-! ## `indexOf`, `includes` and `replace` on literal replacements -/

/-- A replacement template without `$` is copied unchanged. -/
theorem getSubstitution_of_no_dollar (matched pre post : Str) (r : Str) (h : '$' ∉ r) :
    getSubstitution matched pre post r = r := by
  induction r with
  | nil => rfl
  | cons c rest ih =>
    have hc : c ≠ '$' := fun hc => h (hc ▸ List.mem_cons_self _ _)
    have hrest : '$' ∉ rest := fun hm => h (List.mem_cons_of_mem _ hm)
    rw [getSubstitution.eq_def]
    simp only [if_neg hc, ih hrest]

/-- The position found by `indexOf` is an occurrence, and it is the leftmost
one. -/
theorem indexOf_some {pat s : Str} {n : Nat} (h : indexOf pat s = some n) :
    s = s.take n ++ pat ++ s.drop (n + pat.length) ∧
      ∀ pre post : Str, s = pre ++ pat ++ post → n ≤ pre.length := by
  induction s generalizing n with
  | nil =>
    unfold indexOf at h
    split_ifs at h with hp
    cases h
    simp [hp]
  | cons c t ih =>
    unfold indexOf at h
    split_ifs at h with hp
    · cases h
      obtain ⟨rest, hrest⟩ := hp
      refine ⟨?_, fun _ _ _ => Nat.zero_le _⟩
      rw [← hrest]
      simp
    · cases hi : indexOf pat t with
      | none => rw [hi] at h; cases h
      | some m =>
        rw [hi] at h
        simp only [Option.map_some', Option.some.injEq] at h
        subst h
        obtain ⟨h1, h2⟩ := ih hi
        refine ⟨?_, ?_⟩
        · have : m + 1 + pat.length = (m + pat.length) + 1 := by omega
          rw [this, List.take_succ_cons, List.drop_succ_cons, List.cons_append,
            List.cons_append, ← h1]
        · intro pre post hs
          cases pre with
          | nil =>
            exfalso
            apply hp
            exact ⟨post, by rw [hs]; simp⟩
          | cons d pre2 =>
            simp only [List.cons_append, List.cons.injEq] at hs
            have := h2 pre2 post hs.2
            simp only [List.length_cons]
            omega

/-- When `indexOf` finds nothing there is no occurrence. -/
theorem indexOf_none {pat s : Str} (h : indexOf pat s = none) :
    ∀ pre post : Str, s ≠ pre ++ pat ++ post := by
  induction s with
  | nil =>
    unfold indexOf at h
    split_ifs at h with hp
    intro pre post hs
    apply hp
    have := congrArg List.length hs
    simp only [List.length_nil, List.length_append] at this
    exact List.length_eq_zero.mp (by omega)
  | cons c t ih =>
    unfold indexOf at h
    split_ifs at h with hp
    have hi : indexOf pat t = none := by
      cases hi : indexOf pat t with
      | none => rfl
      | some m => rw [hi] at h; cases h
    intro pre post hs
    cases pre with
    | nil => exact hp ⟨post, by rw [hs]; simp⟩
    | cons d pre2 =>
      simp only [List.cons_append, List.cons.injEq] at hs
      exact ih hi pre2 post hs.2

/-- The method `includes` tests for an occurrence. -/
theorem includes_iff (data pat : Str) :
    includes data pat = true ↔ ∃ pre post : Str, data = pre ++ pat ++ post := by
  unfold includes
  cases hi : indexOf pat data with
  | none =>
    simp only [Option.isSome_none, Bool.false_eq_true, false_iff]
    rintro ⟨pre, post, hs⟩
    exact indexOf_none hi pre post hs
  | some n =>
    simp only [Option.isSome_some, true_iff]
    exact ⟨_, _, (indexOf_some hi).1⟩

/-- With a replacement free of `$`, `replace` substitutes the replacement for
the leftmost occurrence of the pattern, literally, and leaves the rest of the
text (later occurrences included) as it was. -/
theorem replace_literal (data find repl : Str) (hrepl : '$' ∉ repl)
    (hinc : includes data find = true) :
    ∃ pre post : Str, data = pre ++ find ++ post ∧
      (∀ pre2 post2 : Str, data = pre2 ++ find ++ post2 → pre.length ≤ pre2.length) ∧
      replace data find repl = pre ++ repl ++ post := by
  unfold includes at hinc
  cases hi : indexOf find data with
  | none => rw [hi] at hinc; cases hinc
  | some n =>
    obtain ⟨h1, h2⟩ := indexOf_some hi
    refine ⟨data.take n, data.drop (n + find.length), h1, ?_, ?_⟩
    · intro pre2 post2 hs
      have := h2 pre2 post2 hs
      rw [List.length_take]
      omega
    · unfold replace
      simp only [hi]
      rw [getSubstitution_of_no_dollar _ _ _ _ hrepl]

/-- A single patch whose replacement is free of `$`: the target file is
overwritten with the text before the leftmost occurrence of `find`, then
`replace`, then the text after that occurrence. -/
theorem applyPatches_single_literal (basePath : Str) (patch : Patch) (fs : FS) (data : Str)
    (hread : readFileSync fs (join basePath patch.file) = some data)
    (hinc : includes data patch.find = true) (hrepl : '$' ∉ patch.replace) :
    ∃ pre post : Str, data = pre ++ patch.find ++ post ∧
      (∀ pre2 post2 : Str, data = pre2 ++ patch.find ++ post2 → pre.length ≤ pre2.length) ∧
      (applyPatches basePath [patch] fs).completion = Completion.returned true ∧
      readFileSync (applyPatches basePath [patch] fs).fs (join basePath patch.file)
        = some (pre ++ patch.replace ++ post) := by
  obtain ⟨pre, post, hdata, hleft, hrep⟩ :=
    replace_literal data patch.find patch.replace hrepl hinc
  have hl := readFileSync_eq_some.mp hread
  have hne := lookup_ne_nil hl
  refine ⟨pre, post, hdata, hleft, ?_, ?_⟩
  · rw [applyPatches_cons]
    simp only [hl, hinc, if_true, applyPatches]
  · rw [applyPatches_cons]
    simp only [hl, hinc, if_true, applyPatches]
    rw [readFileSync_eq_some, lookup_set_self fs hne, hrep]

/-! ## Shape of a path: front, last component, trailing separators -/

/-- Every path is its front, then its last component, then separators only. -/
theorem path_decomposition (p : Str) :
    ∃ sl : Str, (∀ c ∈ sl, c = '/') ∧ p = front p ++ lastComponent p ++ sl := by
  refine ⟨(p.reverse.takeWhile (· = '/')).reverse, ?_, ?_⟩
  · intro c hc
    have := List.mem_takeWhile_imp (List.mem_reverse.mp hc)
    simpa using this
  · have h1 : p.reverse = p.reverse.takeWhile (· = '/') ++ trimmedRev p := by
      unfold trimmedRev
      exact (List.takeWhile_append_dropWhile _ _).symm
    have h2 : trimmedRev p = (trimmedRev p).takeWhile (· ≠ '/') ++
        (trimmedRev p).dropWhile (· ≠ '/') :=
      (List.takeWhile_append_dropWhile _ _).symm
    have h4 : (trimmedRev p).reverse = front p ++ lastComponent p := by
      unfold front lastComponent
      rw [← List.reverse_append, ← h2]
    have h5 : p.reverse.reverse =
        (trimmedRev p).reverse ++ (p.reverse.takeWhile (· = '/')).reverse := by
      rw [← List.reverse_append, ← h1]
    rw [← h4, ← h5, List.reverse_reverse]

theorem lastComponent_no_slash (p : Str) : '/' ∉ lastComponent p := by
  unfold lastComponent
  intro h
  have := List.mem_takeWhile_imp (List.mem_reverse.mp h)
  simp at this

/-- The front of a path is empty or ends with a separator. -/
theorem front_shape (p : Str) : front p = [] ∨ ∃ f : Str, front p = f ++ ['/'] := by
  unfold front
  cases hd : (trimmedRev p).dropWhile (· ≠ '/') with
  | nil => left; rfl
  | cons c rest =>
    right
    have hc : c = '/' := by
      have h := List.head?_dropWhile_not (· ≠ '/') (trimmedRev p)
      rw [hd] at h
      simpa using h
    refine ⟨rest.reverse, ?_⟩
    simp [hc]

/-- Trimming `q ++ e ++ separators`, where `e` is non-empty and does not end
in a separator, removes exactly the separators. -/
theorem trimmedRev_eq (q e sl : Str) (hsl : ∀ c ∈ sl, c = '/') (he : e ≠ [])
    (hlast : e.getLast? ≠ some '/') :
    trimmedRev (q ++ e ++ sl) = e.reverse ++ q.reverse := by
  unfold trimmedRev
  rw [List.reverse_append, List.reverse_append]
  rw [List.dropWhile_append_of_pos]
  · cases hr : e.reverse with
    | nil => exact absurd (List.reverse_eq_nil_iff.mp hr) he
    | cons c rest =>
      have hc : c ≠ '/' := by
        intro hc
        apply hlast
        rw [List.getLast?_eq_head?_reverse, hr, hc]
        rfl
      rw [List.cons_append, List.dropWhile_cons_of_neg]
      simpa using hc
  · intro c hc
    simpa using hsl c (List.mem_reverse.mp hc)

theorem getLast?_ne_of_not_mem {e : Str} {c : Char} (h : c ∉ e) : e.getLast? ≠ some c := by
  intro hl
  exact h (List.mem_of_getLast?_eq_some hl)

/-- Last component of a path written as `q ++ e ++ separators`, where `e` is
non-empty and free of separators. -/
theorem lastComponent_append (q e sl : Str) (hsl : ∀ c ∈ sl, c = '/') (he : e ≠ [])
    (hno : '/' ∉ e) :
    lastComponent (q ++ e ++ sl) = (q.reverse.takeWhile (· ≠ '/')).reverse ++ e := by
  unfold lastComponent
  rw [trimmedRev_eq q e sl hsl he (getLast?_ne_of_not_mem hno)]
  rw [List.takeWhile_append_of_pos]
  · simp
  · intro c hc
    have : c ≠ '/' := fun h => hno (h ▸ List.mem_reverse.mp hc)
    simpa using this

/-- Front of a path written as `q ++ e ++ separators`. -/
theorem front_append (q e sl : Str) (hsl : ∀ c ∈ sl, c = '/') (he : e ≠ [])
    (hno : '/' ∉ e) :
    front (q ++ e ++ sl) = (q.reverse.dropWhile (· ≠ '/')).reverse := by
  unfold front
  rw [trimmedRev_eq q e sl hsl he (getLast?_ne_of_not_mem hno)]
  rw [List.dropWhile_append_of_pos]
  intro c hc
  have : c ≠ '/' := fun h => hno (h ▸ List.mem_reverse.mp hc)
  simpa using this

/-- A non-empty extension is a proper suffix of the last component, which
starts with a `.` and has no other `.`. -/
theorem extname_shape {p e : Str} (h : extname p = e) (he : e ≠ []) :
    ∃ stem rest : Str, stem ≠ [] ∧ lastComponent p = stem ++ e ∧ e = '.' :: rest ∧
      '.' ∉ rest := by
  unfold extname at h
  simp only at h
  by_cases h1 : '.' ∉ lastComponent p
  · rw [if_pos h1] at h
    exact absurd h.symm he
  rw [if_neg h1] at h
  by_cases h2 : (lastComponent p).length =
      ('.' :: ((lastComponent p).reverse.takeWhile (· ≠ '.')).reverse).length
  · rw [if_pos h2] at h
    exact absurd h.symm he
  rw [if_neg h2] at h
  by_cases h3 : lastComponent p = ['.', '.']
  · rw [if_pos h3] at h
    exact absurd h.symm he
  rw [if_neg h3] at h
  · have hdot : '.' ∈ (lastComponent p).reverse := List.mem_reverse.mpr (not_not.mp h1)
    have hsplit := List.takeWhile_append_dropWhile (· ≠ '.') (lastComponent p).reverse
    cases hd : (lastComponent p).reverse.dropWhile (· ≠ '.') with
    | nil =>
      have := (List.dropWhile_eq_nil_iff).mp hd '.' hdot
      simp at this
    | cons c rest =>
      have hc : c = '.' := by
        have h := List.head?_dropWhile_not (· ≠ '.') (lastComponent p).reverse
        rw [hd] at h
        simpa using h
      rw [hd, hc] at hsplit
      have hbase : lastComponent p = rest.reverse ++ e := by
        have := congrArg List.reverse hsplit
        rw [List.reverse_reverse] at this
        rw [← this, ← h]
        simp
      refine ⟨rest.reverse, ((lastComponent p).reverse.takeWhile (· ≠ '.')).reverse, ?_,
        hbase, h.symm, ?_⟩
      · intro hnil
        apply h2
        rw [h]
        have hlen := congrArg List.length hbase
        rw [hnil] at hlen
        simpa using hlen
      · intro hmem
        have := List.mem_takeWhile_imp (List.mem_reverse.mp hmem)
        simp at this

/-- Characterisation of a given extension `.rest` (with `rest` non-empty and
free of `.` and `/`): the path is a non-empty stem not ending in a separator,
then the extension, then separators only. -/
theorem extname_eq_iff (p rest : Str) (hrest : rest ≠ []) (hdot : '.' ∉ rest)
    (hslash : '/' ∉ rest) :
    extname p = '.' :: rest ↔
      ∃ q sl : Str, p = q ++ '.' :: rest ++ sl ∧ (∀ c ∈ sl, c = '/') ∧ q ≠ [] ∧
        q.getLast? ≠ some '/' := by
  have hno : '/' ∉ ('.' :: rest) := by
    simp only [List.mem_cons, not_or]
    exact ⟨by decide, hslash⟩
  constructor
  · intro h
    obtain ⟨stem, rest2, hstem, hbase, -, -⟩ := extname_shape h (List.cons_ne_nil _ _)
    obtain ⟨sl, hsl, hp⟩ := path_decomposition p
    refine ⟨front p ++ stem, sl, ?_, hsl, ?_, ?_⟩
    · conv_lhs => rw [hp, hbase]
      simp [List.append_assoc]
    · simp [hstem]
    · rw [List.getLast?_append_of_ne_nil _ hstem]
      intro hl
      have hmem : '/' ∈ lastComponent p := by
        rw [hbase]
        exact List.mem_append_left _ (List.mem_of_getLast?_eq_some hl)
      exact lastComponent_no_slash p hmem
  · rintro ⟨q, sl, hp, hsl, hq, hlast⟩
    have hbase := lastComponent_append q ('.' :: rest) sl hsl (List.cons_ne_nil _ _) hno
    rw [← hp] at hbase
    have hstem : (q.reverse.takeWhile (· ≠ '/')).reverse ≠ [] := by
      intro hnil
      rw [List.reverse_eq_nil_iff] at hnil
      cases hr : q.reverse with
      | nil => exact hq (List.reverse_eq_nil_iff.mp hr)
      | cons c t =>
        have hc : c ≠ '/' := by
          intro hc
          apply hlast
          rw [List.getLast?_eq_head?_reverse, hr, hc]
          rfl
        rw [hr, List.takeWhile_cons_of_pos (by simpa using hc)] at hnil
        cases hnil
    generalize (q.reverse.takeWhile (· ≠ '/')).reverse = stem at hbase hstem
    have htw : (lastComponent p).reverse.takeWhile (· ≠ '.') = rest.reverse := by
      rw [hbase]
      simp only [List.reverse_append, List.reverse_cons, List.append_assoc]
      rw [List.takeWhile_append_of_pos]
      · simp
      · intro c hc
        have : c ≠ '.' := fun h => hdot (h ▸ List.mem_reverse.mp hc)
        simpa using this
    unfold extname
    simp only [htw, List.reverse_reverse]
    have h1 : '.' ∈ lastComponent p := by
      rw [hbase]; simp
    have h2 : ¬ (lastComponent p).length = ('.' :: rest).length := by
      rw [hbase, List.length_append]
      have := List.length_pos.mpr hstem
      omega
    have h3 : ¬ lastComponent p = ['.', '.'] := by
      intro h
      have hl := congrArg List.length h
      rw [hbase, List.length_append] at hl
      have := List.length_pos.mpr hstem
      have := List.length_pos.mpr hrest
      simp at hl
      omega
    rw [if_neg (not_not.mpr h1), if_neg h2, if_neg h3]

/-! ## Case folding of the two separator characters -/

theorem toLower_fixes (x : Char) (hx : x.toNat < 97) {c : Char} (h : c.toLower = x) :
    c = x := by
  unfold Char.toLower at h
  dsimp only at h
  split_ifs at h with hc
  · exfalso
    obtain ⟨h1, h2⟩ := hc
    have h5 : (Char.ofNat (c.toNat + 32)).toNat = c.toNat + 32 := by
      interval_cases hv : c.toNat <;> rfl
    rw [h] at h5
    omega
  · exact h

theorem toLower_eq_dot {c : Char} (h : c.toLower = '.') : c = '.' :=
  toLower_fixes '.' (by decide) h

theorem toLower_eq_slash {c : Char} (h : c.toLower = '/') : c = '/' :=
  toLower_fixes '/' (by decide) h

theorem mem_toLowerCase_of_mem {x : Char} (hx : x.toLower = x) {e : Str} (h : x ∈ e) :
    x ∈ toLowerCase e := by
  unfold toLowerCase
  exact List.mem_map.mpr ⟨x, h, hx⟩

/-- A string that lowercases to `.rest` is a `.` followed by a string free of
`.` and `/` when `rest` is. -/
theorem toLowerCase_eq_dot_cons {e rest : Str} (h : toLowerCase e = '.' :: rest)
    (hdot : '.' ∉ rest) (hslash : '/' ∉ rest) :
    ∃ e2 : Str, e = '.' :: e2 ∧ toLowerCase e2 = rest ∧ '.' ∉ e2 ∧ '/' ∉ e2 := by
  cases e with
  | nil => simp [toLowerCase] at h
  | cons c e2 =>
    simp only [toLowerCase, List.map_cons, List.cons.injEq] at h
    obtain ⟨hc, he2⟩ := h
    refine ⟨e2, by rw [toLower_eq_dot hc], he2, ?_, ?_⟩
    · intro hm
      apply hdot
      rw [← he2]
      exact mem_toLowerCase_of_mem (by decide) hm
    · intro hm
      apply hslash
      rw [← he2]
      exact mem_toLowerCase_of_mem (by decide) hm

/-- Meaning of `isFileType` for an extension `.rest` with `rest` non-empty
and free of `.` and `/`: the path is a non-empty stem that does not end in a
separator, then a string that lowercases to the extension, then separators
only. -/
theorem isFileType_iff (p rest : Str) (hrest : rest ≠ []) (hdot : '.' ∉ rest)
    (hslash : '/' ∉ rest) :
    isFileType p ('.' :: rest) = true ↔
      ∃ q e sl : Str, p = q ++ e ++ sl ∧ (∀ c ∈ sl, c = '/') ∧
        toLowerCase e = '.' :: rest ∧ q ≠ [] ∧ q.getLast? ≠ some '/' := by
  have hlen : ∀ e2 : Str, toLowerCase e2 = rest → e2 ≠ [] := by
    intro e2 h2 hnil
    rw [hnil] at h2
    exact hrest h2.symm
  unfold isFileType
  rw [decide_eq_true_iff]
  constructor
  · intro h
    obtain ⟨e2, he, he2, hd, hs⟩ := toLowerCase_eq_dot_cons h hdot hslash
    obtain ⟨q, sl, hp, hsl, hq, hlast⟩ := (extname_eq_iff p e2 (hlen e2 he2) hd hs).mp he
    exact ⟨q, '.' :: e2, sl, hp, hsl, by rw [← he]; exact h, hq, hlast⟩
  · rintro ⟨q, e, sl, hp, hsl, hlow, hq, hlast⟩
    obtain ⟨e2, he, he2, hd, hs⟩ := toLowerCase_eq_dot_cons hlow hdot hslash
    have := (extname_eq_iff p e2 (hlen e2 he2) hd hs).mpr ⟨q, sl, by rw [← he]; exact hp,
      hsl, hq, hlast⟩
    rw [this, ← he]
    exact hlow

/-! ## Segments and lexical resolution -/

theorem splitSlash_ne_nil (x : Str) : splitSlash x ≠ [] := by
  cases x with
  | nil => simp [splitSlash]
  | cons c cs =>
    unfold splitSlash
    split_ifs
    · simp
    · split <;> simp

theorem splitSlash_append_slash (x y : Str) :
    splitSlash (x ++ '/' :: y) = splitSlash x ++ splitSlash y := by
  induction x with
  | nil => simp [splitSlash]
  | cons c cs ih =>
    by_cases hc : c = '/'
    · simp [splitSlash, hc, ih]
    · simp only [List.cons_append, splitSlash, hc, if_false]
      have ih2 : splitSlash (cs.append ('/' :: y)) = splitSlash cs ++ splitSlash y := ih
      rw [ih2]
      cases hs : splitSlash cs with
      | nil => exact absurd hs (splitSlash_ne_nil cs)
      | cons s ss => simp

theorem splitSlash_no_slash {x : Str} (h : '/' ∉ x) : splitSlash x = [x] := by
  induction x with
  | nil => simp [splitSlash]
  | cons c cs ih =>
    have hc : c ≠ '/' := fun hc => h (hc ▸ List.mem_cons_self _ _)
    have hcs : '/' ∉ cs := fun hm => h (List.mem_cons_of_mem _ hm)
    simp [splitSlash, hc, ih hcs]

theorem mem_splitSlash_no_slash {x s : Str} (h : s ∈ splitSlash x) : '/' ∉ s := by
  induction x generalizing s with
  | nil =>
    simp [splitSlash] at h
    simp [h]
  | cons c cs ih =>
    by_cases hc : c = '/'
    · simp only [splitSlash, hc, if_true, List.mem_cons] at h
      rcases h with h | h
      · simp [h]
      · exact ih h
    · simp only [splitSlash, hc, if_false] at h
      cases hs : splitSlash cs with
      | nil => exact absurd hs (splitSlash_ne_nil cs)
      | cons t ts =>
        rw [hs] at h ih
        simp only [List.mem_cons] at h
        rcases h with h | h
        · rw [h]
          simp only [List.mem_cons, not_or]
          exact ⟨fun e => hc e.symm, ih (List.mem_cons_self _ _)⟩
        · exact ih (List.mem_cons_of_mem _ h)

theorem resolveStep_nil (st : List Str) : resolveStep st [] = st := by
  simp [resolveStep]

/-- A segment that is a real name is pushed. -/
theorem resolveStep_name {seg : Str} (st : List Str) (h0 : seg ≠ []) (h1 : seg ≠ ['.'])
    (h2 : seg ≠ ['.', '.']) : resolveStep st seg = seg :: st := by
  simp [resolveStep, h0, h1, h2]

/-- Leading separators of a relative remainder do not move the location. -/
theorem foldl_resolveStep_slashes (st : List Str) (sl x : Str) (hsl : ∀ c ∈ sl, c = '/') :
    (splitSlash (sl ++ x)).foldl resolveStep st = (splitSlash x).foldl resolveStep st := by
  induction sl with
  | nil => rfl
  | cons c cs ih =>
    have hc : c = '/' := hsl c (List.mem_cons_self _ _)
    have hcs : ∀ d ∈ cs, d = '/' := fun d hd => hsl d (List.mem_cons_of_mem _ hd)
    simp only [List.cons_append, splitSlash, hc, if_true, List.foldl_cons, resolveStep_nil]
    exact ih hcs

theorem foldl_resolveStep_all_slashes (st : List Str) (sl : Str) (hsl : ∀ c ∈ sl, c = '/') :
    (splitSlash sl).foldl resolveStep st = st := by
  have := foldl_resolveStep_slashes st sl [] hsl
  rw [List.append_nil] at this
  rw [this]
  simp [splitSlash, resolveStep_nil]

/-- Resolution of `name ++ separators`. -/
theorem foldl_resolveStep_name_slashes (st : List Str) (b sl : Str) (hb : '/' ∉ b)
    (hsl : ∀ c ∈ sl, c = '/') :
    (splitSlash (b ++ sl)).foldl resolveStep st = resolveStep st b := by
  cases sl with
  | nil => simp [splitSlash_no_slash hb]
  | cons c cs =>
    have hc : c = '/' := hsl c (List.mem_cons_self _ _)
    have hcs : ∀ d ∈ cs, d = '/' := fun d hd => hsl d (List.mem_cons_of_mem _ hd)
    rw [hc, splitSlash_append_slash, List.foldl_append, splitSlash_no_slash hb]
    simp only [List.foldl_cons, List.foldl_nil]
    exact foldl_resolveStep_all_slashes _ cs hcs

/-- Resolution of `name ++ separators ++ suffix` for a suffix without
separators: the suffix extends the name when there is no separator, and is a
segment of its own otherwise. -/
theorem foldl_resolveStep_name_slashes_suffix (st : List Str) (b sl x : Str) (hb : '/' ∉ b)
    (hsl : ∀ c ∈ sl, c = '/') (hx : '/' ∉ x) :
    (splitSlash (b ++ sl ++ x)).foldl resolveStep st =
      if sl = [] then resolveStep st (b ++ x) else resolveStep (resolveStep st b) x := by
  cases sl with
  | nil =>
    have hbx : '/' ∉ b ++ x := by
      simp only [List.mem_append, not_or]
      exact ⟨hb, hx⟩
    simp [splitSlash_no_slash hbx]
  | cons c cs =>
    have hc : c = '/' := hsl c (List.mem_cons_self _ _)
    have hcs : ∀ d ∈ cs, d = '/' := fun d hd => hsl d (List.mem_cons_of_mem _ hd)
    rw [if_neg (List.cons_ne_nil _ _), hc]
    have : b ++ '/' :: cs ++ x = b ++ '/' :: (cs ++ x) := by simp
    rw [this, splitSlash_append_slash, List.foldl_append, splitSlash_no_slash hb]
    simp only [List.foldl_cons, List.foldl_nil]
    rw [foldl_resolveStep_slashes _ cs x hcs, splitSlash_no_slash hx]
    rfl

/-! ## Resolution relative to the directory of a path -/

theorem resolve_dot (cwd : List Str) : resolve cwd ['.'] = cwd := by
  simp [resolve, splitSlash, resolveStep]

theorem head?_lastComponent_ne_slash (p : Str) : (lastComponent p).head? ≠ some '/' := by
  intro h
  exact lastComponent_no_slash p (List.mem_of_mem_head? h)

/-- The directory of a path whose front is `f/`: the front itself for a root
front, and `f` otherwise. -/
theorem dirname_cases {a f : Str} (hf : front a = f ++ ['/']) :
    dirname a = f ++ ['/'] ∨ (dirname a = f ∧ f ≠ []) := by
  obtain ⟨sl, hsl, ha⟩ := path_decomposition a
  have hne : f ++ ['/'] ≠ [] := by simp
  have hhead : a.head? = (f ++ ['/']).head? := by
    conv_lhs => rw [ha, hf]
    rw [List.append_assoc, List.head?_append_of_ne_nil _ hne]
  have hd : dirname a =
      if a.head? = some '/' ∧ (f ++ ['/']).length ≤ 2 then f ++ ['/'] else f := by
    unfold dirname
    simp only [hf]
    rw [if_neg hne, List.dropLast_concat]
  by_cases hc : a.head? = some '/' ∧ (f ++ ['/']).length ≤ 2
  · left
    rw [hd, if_pos hc]
  · right
    rw [hd, if_neg hc]
    refine ⟨rfl, ?_⟩
    intro hnil
    apply hc
    rw [hhead, hnil]
    exact ⟨rfl, by simp⟩

/-- What follows the front of a path resolves from the directory of the
path. -/
theorem resolve_front_append (cwd : List Str) (a rest : Str) (hb : lastComponent a ≠ [])
    (hrest : rest.head? ≠ some '/') :
    resolve cwd (front a ++ rest) =
      (splitSlash rest).foldl resolveStep (resolve cwd (dirname a)) := by
  obtain ⟨sl, hsl, ha⟩ := path_decomposition a
  rcases front_shape a with hf | ⟨f, hf⟩
  · have hhead : a.head? ≠ some '/' := by
      rw [ha, hf, List.nil_append, List.head?_append_of_ne_nil _ hb]
      exact head?_lastComponent_ne_slash a
    have hd : dirname a = ['.'] := by
      unfold dirname
      simp only [hf, if_true, if_neg hhead]
    rw [hd, resolve_dot, hf, List.nil_append]
    unfold resolve
    rw [if_neg hrest]
  · have hne : f ++ ['/'] ≠ [] := by simp
    have hL : resolve cwd (front a ++ rest) =
        (splitSlash rest).foldl resolveStep
          ((splitSlash f).foldl resolveStep
            (if (f ++ ['/']).head? = some '/' then [] else cwd)) := by
      unfold resolve
      rw [hf]
      have h1 : f ++ ['/'] ++ rest = f ++ '/' :: rest := by simp
      have h2 : (f ++ ['/'] ++ rest).head? = (f ++ ['/']).head? :=
        List.head?_append_of_ne_nil _ hne
      rw [h2, h1, splitSlash_append_slash, List.foldl_append]
    have hD : resolve cwd (dirname a) =
        (splitSlash f).foldl resolveStep
          (if (f ++ ['/']).head? = some '/' then [] else cwd) := by
      rcases dirname_cases hf with hd | ⟨hd, hfne⟩
      · rw [hd]
        unfold resolve
        have h1 : splitSlash (f ++ ['/']) = splitSlash f ++ splitSlash [] :=
          splitSlash_append_slash f []
        rw [h1, List.foldl_append]
        simp [splitSlash, resolveStep_nil]
      · rw [hd]
        unfold resolve
        rw [List.head?_append_of_ne_nil _ hfne]
    rw [hL, hD]

/-! ## `path.normalize` does not change the location a path names -/

/-- Segments kept by `normStep` are real names or `..`. -/
theorem normStep_good (allow : Bool) (st : List Str) (seg : Str)
    (hst : ∀ x ∈ st, x ≠ [] ∧ x ≠ ['.'] ∧ '/' ∉ x) (hseg : '/' ∉ seg) :
    ∀ x ∈ normStep allow st seg, x ≠ [] ∧ x ≠ ['.'] ∧ '/' ∉ x := by
  unfold normStep
  by_cases h0 : seg = [] ∨ seg = ['.']
  · rw [if_pos h0]; exact hst
  · rw [if_neg h0]
    have hgood : seg ≠ [] ∧ seg ≠ ['.'] ∧ '/' ∉ seg :=
      ⟨fun h => h0 (Or.inl h), fun h => h0 (Or.inr h), hseg⟩
    have hcons : ∀ x ∈ seg :: st, x ≠ [] ∧ x ≠ ['.'] ∧ '/' ∉ x := by
      intro x hx
      rcases List.mem_cons.mp hx with h | h
      · rw [h]; exact hgood
      · exact hst x h
    by_cases h2 : seg = ['.', '.']
    · rw [if_pos h2]
      cases st with
      | nil =>
        cases allow
        · simp
        · intro x hx
          simp only [if_true, List.mem_singleton] at hx
          rw [hx]
          exact ⟨by decide, by decide, by decide⟩
      | cons top rest =>
        simp only
        by_cases ht : top = ['.', '.']
        · rw [if_pos ht]
          cases allow
          · exact hst
          · exact hcons
        · rw [if_neg ht]
          intro x hx
          exact hst x (List.mem_cons_of_mem _ hx)
    · rw [if_neg h2]
      exact hcons

/-- Without climbing above the root, `..` is never kept. -/
theorem normStep_no_dotdot (st : List Str) (seg : Str) (hst : ['.', '.'] ∉ st) :
    ['.', '.'] ∉ normStep false st seg := by
  unfold normStep
  by_cases h0 : seg = [] ∨ seg = ['.']
  · rw [if_pos h0]; exact hst
  · rw [if_neg h0]
    by_cases h2 : seg = ['.', '.']
    · rw [if_pos h2]
      cases st with
      | nil => simp
      | cons top rest =>
        simp only
        by_cases ht : top = ['.', '.']
        · rw [if_pos ht]; exact hst
        · rw [if_neg ht]
          intro hx
          exact hst (List.mem_cons_of_mem _ hx)
    · rw [if_neg h2]
      intro hx
      rcases List.mem_cons.mp hx with h | h
      · exact h2 h.symm
      · exact hst h

/-- One segment: resolving the kept segments after `normStep` is resolving
them before it and then the segment. -/
theorem normStep_simulates (allow : Bool) (init st : List Str) (seg : Str)
    (hst : ∀ x ∈ st, x ≠ [] ∧ x ≠ ['.'] ∧ '/' ∉ x)
    (hroot : allow = false → init = [] ∧ ['.', '.'] ∉ st) :
    (normStep allow st seg).foldr (fun s acc => resolveStep acc s) init =
      resolveStep (st.foldr (fun s acc => resolveStep acc s) init) seg := by
  unfold normStep
  by_cases h0 : seg = [] ∨ seg = ['.']
  · rw [if_pos h0]
    simp [resolveStep, h0]
  · rw [if_neg h0]
    by_cases h2 : seg = ['.', '.']
    · rw [if_pos h2]
      cases st with
      | nil =>
        cases allow
        · have := (hroot rfl).1
          simp [this, resolveStep, h2]
        · simp [h2]
      | cons top rest =>
        simp only
        by_cases ht : top = ['.', '.']
        · rw [if_pos ht]
          cases allow
          · exact absurd (ht ▸ List.mem_cons_self _ _) (hroot rfl).2
          · simp
        · rw [if_neg ht]
          have hg := hst top (List.mem_cons_self _ _)
          rw [List.foldr_cons, resolveStep_name _ hg.1 hg.2.1 ht, h2]
          simp [resolveStep]
    · rw [if_neg h2]
      simp

/-- All segments: resolving the normalised segments equals resolving the
original ones. -/
theorem normalize_segments_simulate (allow : Bool) (init : List Str) (segs : List Str)
    (hsegs : ∀ s ∈ segs, '/' ∉ s) (st : List Str)
    (hst : ∀ x ∈ st, x ≠ [] ∧ x ≠ ['.'] ∧ '/' ∉ x)
    (hroot : allow = false → init = [] ∧ ['.', '.'] ∉ st) :
    (segs.foldl (normStep allow) st).foldr (fun s acc => resolveStep acc s) init =
        segs.foldl resolveStep (st.foldr (fun s acc => resolveStep acc s) init) ∧
      ∀ x ∈ segs.foldl (normStep allow) st, x ≠ [] ∧ x ≠ ['.'] ∧ '/' ∉ x := by
  induction segs generalizing st with
  | nil => exact ⟨rfl, hst⟩
  | cons seg rest ih =>
    have hseg : '/' ∉ seg := hsegs seg (List.mem_cons_self _ _)
    have hrest : ∀ s ∈ rest, '/' ∉ s := fun s hs => hsegs s (List.mem_cons_of_mem _ hs)
    have hgood := normStep_good allow st seg hst hseg
    have hroot2 : allow = false → init = [] ∧ ['.', '.'] ∉ normStep allow st seg := by
      intro ha
      refine ⟨(hroot ha).1, ?_⟩
      rw [ha]
      exact normStep_no_dotdot st seg (hroot ha).2
    have := ih hrest (normStep allow st seg) hgood hroot2
    rw [List.foldl_cons, List.foldl_cons, this.1, normStep_simulates allow init st seg hst hroot]
    exact ⟨rfl, this.2⟩

theorem intercalate_cons_cons (x y : Str) (rest : List Str) :
    List.intercalate ['/'] (x :: y :: rest) = x ++ '/' :: List.intercalate ['/'] (y :: rest) := by
  simp [List.intercalate, List.intersperse]

theorem intercalate_single (x : Str) : List.intercalate ['/'] [x] = x := by
  simp [List.intercalate, List.intersperse]

/-- Splitting the joined segments gives the segments back. -/
theorem splitSlash_intercalate (names : List Str) (hne : names ≠ [])
    (hno : ∀ x ∈ names, '/' ∉ x) :
    splitSlash (List.intercalate ['/'] names) = names := by
  induction names with
  | nil => exact absurd rfl hne
  | cons x rest ih =>
    cases rest with
    | nil =>
      rw [intercalate_single]
      exact splitSlash_no_slash (hno x (List.mem_cons_self _ _))
    | cons y rest2 =>
      rw [intercalate_cons_cons, splitSlash_append_slash,
        splitSlash_no_slash (hno x (List.mem_cons_self _ _)),
        ih (List.cons_ne_nil _ _) (fun z hz => hno z (List.mem_cons_of_mem _ hz))]
      rfl

/-- The joined segments start with the first character of the first
segment. -/
theorem head?_intercalate (x : Str) (rest : List Str) (hx : x ≠ []) :
    (List.intercalate ['/'] (x :: rest)).head? = x.head? := by
  cases rest with
  | nil => rw [intercalate_single]
  | cons y rest2 => rw [intercalate_cons_cons, List.head?_append_of_ne_nil _ hx]

theorem intercalate_eq_nil {names : List Str} (hgood : ∀ x ∈ names, x ≠ [])
    (h : List.intercalate ['/'] names = []) : names = [] := by
  cases names with
  | nil => rfl
  | cons x rest =>
    exfalso
    have hx := hgood x (List.mem_cons_self _ _)
    have := head?_intercalate x rest hx
    rw [h] at this
    cases x with
    | nil => exact hx rfl
    | cons c cs => simp at this

/-- Resolution of joined segments, with or without a trailing separator. -/
theorem foldl_resolveStep_intercalate (init : List Str) (names : List Str) (hne : names ≠ [])
    (hno : ∀ x ∈ names, '/' ∉ x) (t : Str) (ht : t = [] ∨ t = ['/']) :
    (splitSlash (List.intercalate ['/'] names ++ t)).foldl resolveStep init =
      names.foldl resolveStep init := by
  have hsp := splitSlash_intercalate names hne hno
  rcases ht with ht | ht
  · rw [ht, List.append_nil, hsp]
  · have := splitSlash_append_slash (List.intercalate ['/'] names) []
    rw [ht, this, hsp, List.foldl_append]
    simp [splitSlash, resolveStep_nil]

theorem resolve_joined_absolute (cwd : List Str) (names : List Str) (hne : names ≠ [])
    (hno : ∀ x ∈ names, '/' ∉ x) (t : Str) (ht : t = [] ∨ t = ['/']) :
    resolve cwd (['/'] ++ List.intercalate ['/'] names ++ t) = names.foldl resolveStep [] := by
  have h1 : ['/'] ++ List.intercalate ['/'] names ++ t =
      [] ++ '/' :: (List.intercalate ['/'] names ++ t) := by simp
  unfold resolve
  rw [h1, splitSlash_append_slash, List.foldl_append]
  simp only [List.nil_append, List.head?_cons, if_true, splitSlash, List.foldl_cons,
    List.foldl_nil, resolveStep_nil]
  exact foldl_resolveStep_intercalate [] names hne hno t ht

theorem resolve_joined_relative (cwd : List Str) (names : List Str) (hne : names ≠ [])
    (hgood : ∀ x ∈ names, x ≠ [] ∧ '/' ∉ x) (t : Str) (ht : t = [] ∨ t = ['/']) :
    resolve cwd ([] ++ List.intercalate ['/'] names ++ t) = names.foldl resolveStep cwd := by
  have hhead : ([] ++ List.intercalate ['/'] names ++ t).head? ≠ some '/' := by
    cases names with
    | nil => exact absurd rfl hne
    | cons x rest =>
      have hx := hgood x (List.mem_cons_self _ _)
      have hb : List.intercalate ['/'] (x :: rest) ≠ [] := by
        intro hb
        have := head?_intercalate x rest hx.1
        rw [hb] at this
        cases x with
        | nil => exact hx.1 rfl
        | cons c cs => simp at this
      rw [List.nil_append, List.head?_append_of_ne_nil _ hb, head?_intercalate x rest hx.1]
      intro h
      exact hx.2 (List.mem_of_mem_head? h)
  unfold resolve
  rw [if_neg hhead, List.nil_append]
  exact foldl_resolveStep_intercalate cwd names hne (fun x hx => (hgood x hx).2) t ht

/-- The location named by a path is not changed by `path.normalize`. -/
theorem resolve_normalize (cwd : List Str) (s : Str) (hs : s ≠ []) :
    resolve cwd (normalize s) = resolve cwd s := by
  have hsegs : ∀ x ∈ splitSlash s, '/' ∉ x := fun x hx => mem_splitSlash_no_slash hx
  have htrail : ∀ b : Bool, (if b = true then ['/'] else ([] : Str)) = [] ∨
      (if b = true then ['/'] else ([] : Str)) = ['/'] := by
    intro b
    cases b <;> simp
  by_cases habs : s.head? = some '/'
  · -- absolute path
    obtain ⟨hsim, hgood⟩ := normalize_segments_simulate false [] (splitSlash s) hsegs []
      (by simp) (fun _ => ⟨rfl, by simp⟩)
    have hR : resolve cwd s =
        ((splitSlash s).foldl (normStep false) []).reverse.foldl resolveStep [] := by
      unfold resolve
      rw [if_pos habs, List.foldl_reverse, hsim]
      rfl
    rw [hR]
    unfold normalize
    simp only [if_neg hs, habs, decide_True, Bool.not_true, if_true]
    generalize hst : (splitSlash s).foldl (normStep false) [] = stack at hgood
    have hnames : ∀ x ∈ stack.reverse, x ≠ [] ∧ x ≠ ['.'] ∧ '/' ∉ x :=
      fun x hx => hgood x (List.mem_reverse.mp hx)
    generalize stack.reverse = names at hnames
    by_cases hbody : List.intercalate ['/'] names = []
    · have hn := intercalate_eq_nil (fun x hx => (hnames x hx).1) hbody
      rw [if_pos hbody, hn]
      simp [resolve, splitSlash, resolveStep]
    · have hn : names ≠ [] := by
        intro hn
        apply hbody
        rw [hn]
        rfl
      rw [if_neg hbody]
      exact resolve_joined_absolute cwd names hn (fun x hx => (hnames x hx).2.2) _ (htrail _)
  · -- relative path
    obtain ⟨hsim, hgood⟩ := normalize_segments_simulate true cwd (splitSlash s) hsegs []
      (by simp) (fun h => by cases h)
    have hR : resolve cwd s =
        ((splitSlash s).foldl (normStep true) []).reverse.foldl resolveStep cwd := by
      unfold resolve
      rw [if_neg habs, List.foldl_reverse, hsim]
      rfl
    rw [hR]
    unfold normalize
    simp only [if_neg hs, habs, decide_False, Bool.not_false, if_false, Bool.false_eq_true]
    generalize hst : (splitSlash s).foldl (normStep true) [] = stack at hgood
    have hnames : ∀ x ∈ stack.reverse, x ≠ [] ∧ x ≠ ['.'] ∧ '/' ∉ x :=
      fun x hx => hgood x (List.mem_reverse.mp hx)
    generalize stack.reverse = names at hnames
    by_cases hbody : List.intercalate ['/'] names = []
    · have hn := intercalate_eq_nil (fun x hx => (hnames x hx).1) hbody
      rw [if_pos hbody, hn]
      by_cases htr : s.getLast? = some '/'
      · simp [htr, resolve, splitSlash, resolveStep]
      · simp [htr, resolve, splitSlash, resolveStep]
    · have hn : names ≠ [] := by
        intro hn
        apply hbody
        rw [hn]
        rfl
      rw [if_neg hbody]
      exact resolve_joined_relative cwd names hn
        (fun x hx => ⟨(hnames x hx).1, (hnames x hx).2.2⟩) _ (htrail _)

/-! ## The workspace, the container and its backup are different places -/

theorem dirname_ne_nil (a : Str) : dirname a ≠ [] := by
  rcases front_shape a with hf | ⟨f, hf⟩
  · unfold dirname
    simp only [hf, if_true]
    split_ifs <;> simp
  · rcases dirname_cases hf with hd | ⟨hd, hfne⟩
    · rw [hd]; simp
    · rw [hd]; exact hfne

/-- The workspace is the entry `extracted` of the container's directory. -/
theorem resolve_extractPathOf (cwd : List Str) (a : Str) :
    resolve cwd (extractPathOf a) = "extracted".toList :: resolve cwd (dirname a) := by
  have hd := dirname_ne_nil a
  have hj : extractPathOf a = normalize (dirname a ++ '/' :: "extracted".toList) := by
    unfold extractPathOf getDirectoryPath join
    rw [if_neg (fun h => hd h.1), if_neg hd, if_neg (by decide)]
    rfl
  have hE : splitSlash "extracted".toList = ["extracted".toList] := by decide
  have hname : ∀ st : List Str, resolveStep st "extracted".toList = "extracted".toList :: st :=
    fun st => resolveStep_name st (by decide) (by decide) (by decide)
  rw [hj, resolve_normalize cwd _ (by simp)]
  unfold resolve
  rw [List.head?_append_of_ne_nil _ hd, splitSlash_append_slash, List.foldl_append, hE]
  simp only [List.foldl_cons, List.foldl_nil]
  exact hname _

/-- Where an accepted container path and its backup path resolve: the
container is the entry named by its last component in its directory; the
backup is next to it, or inside it when the path was given with trailing
separators. -/
theorem resolve_container (cwd : List Str) (a : Str) (hasar : isFileType a dotAsar = true) :
    '.' ∈ lastComponent a ∧
    resolve cwd a = lastComponent a :: resolve cwd (dirname a) ∧
    (resolve cwd (a ++ dotOld) = (lastComponent a ++ dotOld) :: resolve cwd (dirname a) ∨
      resolve cwd (a ++ dotOld) = dotOld :: lastComponent a :: resolve cwd (dirname a)) := by
  have hlow : toLowerCase (extname a) = dotAsar := by
    unfold isFileType at hasar
    exact of_decide_eq_true hasar
  have hlen : (extname a).length = 5 := by
    have := congrArg List.length hlow
    simpa [toLowerCase, dotAsar] using this
  have hne : extname a ≠ [] := by
    intro h
    rw [h] at hlen
    cases hlen
  obtain ⟨stem, rest, hstem, hbase, he, -⟩ := extname_shape rfl hne
  have hblen : 6 ≤ (lastComponent a).length := by
    rw [hbase, List.length_append, hlen]
    have := List.length_pos.mpr hstem
    omega
  have hdot : '.' ∈ lastComponent a := by
    rw [hbase, he]
    simp
  have hb0 : lastComponent a ≠ [] := by
    intro h; rw [h] at hblen; simp at hblen
  have hb1 : lastComponent a ≠ ['.'] := by
    intro h; rw [h] at hblen; simp at hblen
  have hb2 : lastComponent a ≠ ['.', '.'] := by
    intro h; rw [h] at hblen; simp at hblen
  have hbs := lastComponent_no_slash a
  obtain ⟨sl, hsl, ha⟩ := path_decomposition a
  have hhead : ∀ t : Str, (lastComponent a ++ t).head? ≠ some '/' := by
    intro t
    rw [List.head?_append_of_ne_nil _ hb0]
    exact head?_lastComponent_ne_slash a
  refine ⟨hdot, ?_, ?_⟩
  · have h1 := resolve_front_append cwd a (lastComponent a ++ sl) hb0 (hhead sl)
    rw [← List.append_assoc, ← ha] at h1
    rw [h1, foldl_resolveStep_name_slashes _ _ _ hbs hsl]
    exact resolveStep_name _ hb0 hb1 hb2
  · have h1 := resolve_front_append cwd a (lastComponent a ++ sl ++ dotOld) hb0
      (by rw [List.append_assoc]; exact hhead _)
    have h2 : front a ++ (lastComponent a ++ sl ++ dotOld) = a ++ dotOld := by
      conv_rhs => rw [ha]
      simp [List.append_assoc]
    rw [h2] at h1
    rw [h1, foldl_resolveStep_name_slashes_suffix _ _ _ _ hbs hsl (by decide)]
    have hold0 : lastComponent a ++ dotOld ≠ [] := by simp [hb0]
    have holdlen : 10 ≤ (lastComponent a ++ dotOld).length := by
      rw [List.length_append]
      simp only [dotOld, List.length_cons, List.length_nil]
      omega
    have hold1 : lastComponent a ++ dotOld ≠ ['.'] := by
      intro h; rw [h] at holdlen; simp at holdlen
    have hold2 : lastComponent a ++ dotOld ≠ ['.', '.'] := by
      intro h; rw [h] at holdlen; simp at holdlen
    by_cases hs : sl = []
    · left
      rw [if_pos hs]
      exact resolveStep_name _ hold0 hold1 hold2
    · right
      rw [if_neg hs, resolveStep_name _ hb0 hb1 hb2]
      exact resolveStep_name _ (by decide) (by decide) (by decide)

theorem not_cons_suffix_self {α : Type} (x : α) (l : List α) : ¬ x :: l <:+ l := by
  intro h
  have := h.length_le
  simp at this

/-- Neither the container nor its backup lies inside the workspace, so the
final cleanup of the workspace removes neither. -/
theorem workspace_apart (cwd : List Str) (a : Str) (hasar : isFileType a dotAsar = true) :
    ¬ resolve cwd (extractPathOf a) <:+ resolve cwd a ∧
    ¬ resolve cwd (extractPathOf a) <:+ resolve cwd (a ++ dotOld) := by
  obtain ⟨hdot, hres, hold⟩ := resolve_container cwd a hasar
  rw [resolve_extractPathOf, hres]
  have hne : "extracted".toList ≠ lastComponent a := by
    intro h
    rw [← h] at hdot
    revert hdot
    decide
  have h1 : ¬ "extracted".toList :: resolve cwd (dirname a) <:+
      lastComponent a :: resolve cwd (dirname a) := by
    intro h
    rcases List.suffix_cons_iff.mp h with h | h
    · exact hne (List.cons.inj h).1
    · exact not_cons_suffix_self _ _ h
  refine ⟨h1, ?_⟩
  rcases hold with hold | hold
  · rw [hold]
    intro h
    rcases List.suffix_cons_iff.mp h with h | h
    · have h2 := (List.cons.inj h).1
      have : '.' ∈ "extracted".toList := by
        rw [h2]
        simp [dotOld]
      revert this
      decide
    · exact not_cons_suffix_self _ _ h
  · rw [hold]
    intro h
    rcases List.suffix_cons_iff.mp h with h | h
    · have := congrArg List.length h
      simp at this
    · exact h1 h

/-! ## Claims about `applyPatches` -/

/-- C2 (code defect, exhibited): the replacement is not inserted as literal
text. On a file holding `aXbXc`, the patch with find `X` and replace `$&!`
passes its test and the file is overwritten with `aX!bXc`: the `$&` of the
replacement was expanded to the matched text, where literal insertion gives
`a$&!bXc`. The second `X` is left alone. -/
theorem applyPatches_replace_not_literal :
    includes "aXbXc".toList "X".toList = true ∧
    (applyPatches "ws".toList [⟨"a.js".toList, "X".toList, "$&!".toList⟩]
      (oneFileFS "aXbXc".toList)).completion = Completion.returned true ∧
    readFileSync (applyPatches "ws".toList [⟨"a.js".toList, "X".toList, "$&!".toList⟩]
      (oneFileFS "aXbXc".toList)).fs "ws/a.js".toList = some "aX!bXc".toList ∧
    "aX!bXc".toList ≠ "a".toList ++ "$&!".toList ++ "bXc".toList := by
  decide

/-- C9 (code defect, exhibited): a patch whose replace equals its find can
change the file. With find and replace both `$$`, a file holding `a$$b` is
overwritten with `a$b`, because `$$` in a replacement stands for one `$`. -/
theorem applyPatches_same_find_replace_changes_file :
    (applyPatches "ws".toList [⟨"a.js".toList, "$$".toList, "$$".toList⟩]
      (oneFileFS "a$$b".toList)).completion = Completion.returned true ∧
    readFileSync (oneFileFS "a$$b".toList) "ws/a.js".toList = some "a$$b".toList ∧
    readFileSync (applyPatches "ws".toList [⟨"a.js".toList, "$$".toList, "$$".toList⟩]
      (oneFileFS "a$$b".toList)).fs "ws/a.js".toList = some "a$b".toList := by
  decide

/-- C3 as stated fails: a patch whose target is a directory fails the test
(no existing file containing `find`), yet `applyPatches` does not return
`false`: reading the directory raises. Here the patch has the empty `file`,
so its target is the base directory itself. -/
theorem applyPatches_directory_target_raises :
    patchPasses "ws".toList ⟨[], "a".toList, "b".toList⟩ (oneFileFS "a".toList) = false ∧
    existsSync (oneFileFS "a".toList) (join "ws".toList []) = true ∧
    (applyPatches "ws".toList [⟨[], "a".toList, "b".toList⟩]
      (oneFileFS "a".toList)).completion = Completion.raised := by
  decide

/-- C3 (amended): `applyPatches` returns `true` iff every patch, taken in
order against the state left by the patches before it, has an existing
target file whose content contains its find string; and when patch `k` is the
first one that fails this test and its target is not a directory,
`applyPatches` returns `false`, the final state is the state left by patches
`0..k-1` (which returned `true`), and the patches after `k` play no part in
the result. -/
theorem applyPatches_stops_at_first_failure (basePath : Str) (ps : List Patch) (fs : FS) :
    ((applyPatches basePath ps fs).completion = Completion.returned true ↔
      ∀ j (hj : j < ps.length),
        patchPasses basePath (ps.get ⟨j, hj⟩)
          (applyPatches basePath (ps.take j) fs).fs = true) ∧
    ∀ k (hk : k < ps.length),
      (∀ j (hj : j < ps.length), j < k →
        patchPasses basePath (ps.get ⟨j, hj⟩)
          (applyPatches basePath (ps.take j) fs).fs = true) →
      patchPasses basePath (ps.get ⟨k, hk⟩)
          (applyPatches basePath (ps.take k) fs).fs = false →
      (applyPatches basePath (ps.take k) fs).fs.lookup
          (join basePath (ps.get ⟨k, hk⟩).file) ≠ some Entry.dir →
      applyPatches basePath ps fs =
          ⟨Completion.returned false, (applyPatches basePath (ps.take k) fs).fs⟩ ∧
        (applyPatches basePath (ps.take k) fs).completion = Completion.returned true ∧
        ∀ later : List Patch,
          applyPatches basePath (ps.take k ++ ps.get ⟨k, hk⟩ :: later) fs =
            applyPatches basePath ps fs := by
  constructor
  · exact applyPatches_true_iff basePath ps fs
  · intro k hk hearlier hfail hdir
    have hc := (applyPatches_take_true basePath ps fs k (Nat.le_of_lt hk)).mpr hearlier
    have hstop : ∀ later : List Patch,
        applyPatches basePath (ps.take k ++ ps.get ⟨k, hk⟩ :: later) fs =
          ⟨Completion.returned false, (applyPatches basePath (ps.take k) fs).fs⟩ := by
      intro later
      rw [applyPatches_append, if_pos hc]
      exact applyPatches_cons_fail later hfail hdir
    have hsplit : ps = ps.take k ++ ps.get ⟨k, hk⟩ :: ps.drop (k + 1) := by
      have h1 : ps.drop k = ps.get ⟨k, hk⟩ :: ps.drop (k + 1) := by
        simp
      rw [← h1, List.take_append_drop]
    have hps : applyPatches basePath ps fs =
        ⟨Completion.returned false, (applyPatches basePath (ps.take k) fs).fs⟩ := by
      conv_lhs => rw [hsplit]
      exact hstop _
    refine ⟨hps, hc, ?_⟩
    intro later
    rw [hstop later, hps]

/-- Witness for C3: the second of three patches names a missing file; the call
returns `false` with the state the first patch left. -/
theorem applyPatches_stops_at_first_failure_witness :
    applyPatches "ws".toList
        [⟨"a.js".toList, "X".toList, "Y".toList⟩, ⟨"b.js".toList, "A".toList, "B".toList⟩,
          ⟨"a.js".toList, "Y".toList, "Z".toList⟩] (oneFileFS "X".toList) =
      ⟨Completion.returned false,
        (applyPatches "ws".toList [⟨"a.js".toList, "X".toList, "Y".toList⟩]
          (oneFileFS "X".toList)).fs⟩ :=
  ((applyPatches_stops_at_first_failure "ws".toList
      [⟨"a.js".toList, "X".toList, "Y".toList⟩, ⟨"b.js".toList, "A".toList, "B".toList⟩,
        ⟨"a.js".toList, "Y".toList, "Z".toList⟩] (oneFileFS "X".toList)).2
    1 (by decide) (by decide) (by decide) (by decide)).1

/-- C4: patches are applied in sequence, each one seeing the effect of the
earlier ones. A call on `ps ++ qs` returns `true` iff the call on `ps` returns
`true` and the call on `qs`, run on the state `ps` left, returns `true`; in
that case the two runs end in the same state. Concretely, on any filesystem
where `a.js` under the root holds `X`, the patches `X -> Y` then `Y -> Z` on
`a.js` succeed and leave `a.js` holding `Z`. -/
theorem applyPatches_sequential (basePath : Str) (ps qs : List Patch) (fs : FS) :
    ((applyPatches basePath (ps ++ qs) fs).completion = Completion.returned true ↔
      (applyPatches basePath ps fs).completion = Completion.returned true ∧
        (applyPatches basePath qs (applyPatches basePath ps fs).fs).completion =
          Completion.returned true) ∧
    ((applyPatches basePath ps fs).completion = Completion.returned true →
      applyPatches basePath (ps ++ qs) fs =
        applyPatches basePath qs (applyPatches basePath ps fs).fs) ∧
    (readFileSync fs (join basePath "a.js".toList) = some "X".toList →
      (applyPatches basePath
          [⟨"a.js".toList, "X".toList, "Y".toList⟩, ⟨"a.js".toList, "Y".toList, "Z".toList⟩]
          fs).completion = Completion.returned true ∧
        readFileSync (applyPatches basePath
          [⟨"a.js".toList, "X".toList, "Y".toList⟩, ⟨"a.js".toList, "Y".toList, "Z".toList⟩]
          fs).fs (join basePath "a.js".toList) = some "Z".toList) := by
  refine ⟨?_, ?_, ?_⟩
  · rw [applyPatches_append]
    by_cases hc : (applyPatches basePath ps fs).completion = Completion.returned true
    · simp [hc]
    · simp [hc]
  · intro hc
    rw [applyPatches_append, if_pos hc]
  · intro hr
    have hl := readFileSync_eq_some.mp hr
    have hne := lookup_ne_nil hl
    have hX : includes "X".toList "X".toList = true := by decide
    have hY : includes (replace "X".toList "X".toList "Y".toList) "Y".toList = true := by decide
    have hZ : replace (replace "X".toList "X".toList "Y".toList) "Y".toList "Z".toList
        = "Z".toList := by decide
    have hl2 : ∀ e, (fs.set (resolve fs.cwd (join basePath "a.js".toList)) (some e)).lookup
        (join basePath "a.js".toList) = some e := fun e => lookup_set_self fs hne (some e)
    rw [applyPatches_cons]
    simp only [hl, hX, if_true]
    rw [applyPatches_cons]
    simp only [hl2, hY, if_true, hZ, applyPatches]
    refine ⟨trivial, ?_⟩
    rw [readFileSync_eq_some]
    exact lookup_set_self _ hne _

/-- Witness for C4: the concrete two-patch run on a workspace whose `a.js`
holds `X`. -/
theorem applyPatches_sequential_witness :
    readFileSync (applyPatches "ws".toList
        [⟨"a.js".toList, "X".toList, "Y".toList⟩, ⟨"a.js".toList, "Y".toList, "Z".toList⟩]
        (oneFileFS "X".toList)).fs (join "ws".toList "a.js".toList) = some "Z".toList :=
  ((applyPatches_sequential "ws".toList [] [] (oneFileFS "X".toList)).2.2 (by decide)).2

/-- C10: `applyPatches` changes only files whose path is
`path.join(basePath, p.file)` for a patch `p` of the list. Every other
location keeps its entry, the working directory is unchanged, no path is
created or deleted (a path exists after the call iff it existed before), and
directories stay directories. -/
theorem applyPatches_frame (basePath : Str) (ps : List Patch) (fs : FS) :
    (applyPatches basePath ps fs).fs.cwd = fs.cwd ∧
    (∀ q : Str, (∀ p ∈ ps, resolve fs.cwd q ≠ resolve fs.cwd (join basePath p.file)) →
      (applyPatches basePath ps fs).fs.lookup q = fs.lookup q) ∧
    (∀ k : List Str, (∀ p ∈ ps, k ≠ resolve fs.cwd (join basePath p.file)) →
      (applyPatches basePath ps fs).fs.entry k = fs.entry k) ∧
    (∀ q : Str, existsSync (applyPatches basePath ps fs).fs q = existsSync fs q) ∧
    (∀ k : List Str,
      ((applyPatches basePath ps fs).fs.entry k).isSome = (fs.entry k).isSome ∧
      ((applyPatches basePath ps fs).fs.entry k = some Entry.dir ↔
        fs.entry k = some Entry.dir)) := by
  refine ⟨applyPatches_cwd basePath ps fs,
    fun q hq => applyPatches_lookup_of_not_target basePath ps fs q hq, ?_,
    fun q => applyPatches_existsSync basePath ps fs q,
    fun k => applyPatches_entry_kind basePath ps fs k⟩
  intro k hk
  rcases applyPatches_entry basePath ps fs k with h | ⟨⟨p, hp, hkp⟩, -, -⟩
  · exact h
  · exact absurd hkp (hk p hp)

/-- Witness for C10: a patch on `a.js` leaves the workspace directory entry as
it was. -/
theorem applyPatches_frame_witness :
    (applyPatches "ws".toList [⟨"a.js".toList, "X".toList, "Y".toList⟩]
      (oneFileFS "X".toList)).fs.lookup "ws".toList = (oneFileFS "X".toList).lookup "ws".toList :=
  (applyPatches_frame "ws".toList [⟨"a.js".toList, "X".toList, "Y".toList⟩]
    (oneFileFS "X".toList)).2.1 "ws".toList (by decide)

/-! ## Claims about `main` -/

/-- C6: when the package metadata and the patch descriptor both load and
their versions differ, `main` logs the version-mismatch error and returns
with the filesystem exactly as `extractAll` left it: no patch is attempted,
nothing is renamed and no container is created. -/
theorem main_version_mismatch (h : Host) (node script asarFilePath patchFilePath : Str)
    (fs fs0 fs1 : FS) (packageData patchData : JVal)
    (hasar : isFileType asarFilePath dotAsar = true)
    (hjson : isFileType patchFilePath dotJson = true)
    (hdir : ensureDir fs (extractPathOf asarFilePath) = some fs0)
    (hext : h.extractAll fs0 asarFilePath (extractPathOf asarFilePath) = (fs1, true))
    (hpkg : existsSync fs1 (join (extractPathOf asarFilePath) packageJson) = true)
    (hpackage : parseJSONFile h fs1 (join (extractPathOf asarFilePath) packageJson)
      = some packageData)
    (hpatch : parseJSONFile h fs1 patchFilePath = some patchData)
    (htruthy1 : truthy packageData = true) (htruthy2 : truthy patchData = true)
    (hversion : strictEq (getProp packageData "version".toList)
      (getProp patchData "version".toList) = false) :
    main h [node, script, asarFilePath, patchFilePath] fs =
      ⟨Status.returned,
        [log "INFO" "Extracting .asar file.",
          log "ERROR" "Version mismatch between app.asar and patch file."], fs1⟩ := by
  have hversion2 : strictEq (getProp packageData ['v', 'e', 'r', 's', 'i', 'o', 'n'])
      (getProp patchData ['v', 'e', 'r', 's', 'i', 'o', 'n']) = false := hversion
  simp only [main, hasar, hjson, hdir, hext, hpkg, hpackage, hpatch, htruthy1, htruthy2,
    hversion2]
  simp

/-- Witness for C6: the demo run with a descriptor of another version. -/
theorem main_version_mismatch_witness :
    main demoHost demoArgv (demoFS patchTextOtherVersion) =
      ⟨Status.returned,
        [log "INFO" "Extracting .asar file.",
          log "ERROR" "Version mismatch between app.asar and patch file."],
        demoFS1 patchTextOtherVersion⟩ :=
  main_version_mismatch demoHost "node".toList "gitkraked.js".toList "app.asar".toList
    "patch.json".toList (demoFS patchTextOtherVersion) (demoFS0 patchTextOtherVersion)
    (demoFS1 patchTextOtherVersion)
    (JVal.obj [("version".toList, JVal.str "1.0".toList)]) (descriptor "2.0".toList [])
    (by decide) (by decide) rfl rfl (by decide) rfl rfl (by decide) (by decide) (by decide)

/-- C7 as stated fails: on a patch file that exists and holds the malformed
text `{`, `parseJSONFile` does not return `null`, it raises (the exception of
the parser is not caught), and `main` ends by raising right after the
extraction log line, without logging an error. -/
theorem parseJSONFile_malformed_raises :
    existsSync (demoFS1 "\x7b".toList) "patch.json".toList = true ∧
    readFileSync (demoFS1 "\x7b".toList) "patch.json".toList = some "\x7b".toList ∧
    (demoHost.jsonParse "\x7b".toList).isNone = true ∧
    (parseJSONFile demoHost (demoFS1 "\x7b".toList) "patch.json".toList).isNone = true ∧
    (main demoHost demoArgv (demoFS "\x7b".toList)).status = Status.raised ∧
    (main demoHost demoArgv (demoFS "\x7b".toList)).logs
      = [log "INFO" "Extracting .asar file."] := by
  decide

/-- C7 (amended): `parseJSONFile` returns `null` when the file is absent; when
the file exists it returns what `JSON.parse` returns on its text and raises
when the parser raises. In `main`, after a completed extraction: an absent
`package.json` gives the `package.json missing` error; a `package.json` or a
patch file whose load raises makes `main` raise; an absent patch file (with
`package.json` loaded) gives the `Couldn't read package or patch data.`
error. In all these cases the filesystem is left as `extractAll` left it: no
patch is applied, nothing is renamed or repacked. -/
theorem parseJSONFile_and_load_failures (h : Host) :
    (∀ (fs : FS) (p : Str), existsSync fs p = false → parseJSONFile h fs p = some JVal.null) ∧
    (∀ (fs : FS) (p text : Str), readFileSync fs p = some text →
      parseJSONFile h fs p = h.jsonParse text) ∧
    (∀ (fs : FS) (p text : Str), readFileSync fs p = some text → h.jsonParse text = none →
      parseJSONFile h fs p = none) ∧
    ∀ (node script asarFilePath patchFilePath : Str) (fs fs0 fs1 : FS),
      isFileType asarFilePath dotAsar = true →
      isFileType patchFilePath dotJson = true →
      ensureDir fs (extractPathOf asarFilePath) = some fs0 →
      h.extractAll fs0 asarFilePath (extractPathOf asarFilePath) = (fs1, true) →
      (existsSync fs1 (join (extractPathOf asarFilePath) packageJson) = false →
        main h [node, script, asarFilePath, patchFilePath] fs =
          ⟨Status.returned,
            [log "INFO" "Extracting .asar file.",
              log "ERROR" "package.json missing from extracted app.asar."], fs1⟩) ∧
      (existsSync fs1 (join (extractPathOf asarFilePath) packageJson) = true →
        (parseJSONFile h fs1 (join (extractPathOf asarFilePath) packageJson) = none →
          main h [node, script, asarFilePath, patchFilePath] fs =
            ⟨Status.raised, [log "INFO" "Extracting .asar file."], fs1⟩) ∧
        ∀ packageData : JVal,
          parseJSONFile h fs1 (join (extractPathOf asarFilePath) packageJson)
            = some packageData →
          (parseJSONFile h fs1 patchFilePath = none →
            main h [node, script, asarFilePath, patchFilePath] fs =
              ⟨Status.raised, [log "INFO" "Extracting .asar file."], fs1⟩) ∧
          (existsSync fs1 patchFilePath = false →
            main h [node, script, asarFilePath, patchFilePath] fs =
              ⟨Status.returned,
                [log "INFO" "Extracting .asar file.",
                  log "ERROR" "Couldn't read package or patch data."], fs1⟩)) := by
  have habsent : ∀ (fs : FS) (p : Str), existsSync fs p = false →
      parseJSONFile h fs p = some JVal.null := by
    intro fs p hp
    simp [parseJSONFile, hp]
  have hpresent : ∀ (fs : FS) (p text : Str), readFileSync fs p = some text →
      parseJSONFile h fs p = h.jsonParse text := by
    intro fs p text hr
    have hl := readFileSync_eq_some.mp hr
    simp [parseJSONFile, existsSync, hl, hr]
  refine ⟨habsent, hpresent, ?_, ?_⟩
  · intro fs p text hr hparse
    rw [hpresent fs p text hr, hparse]
  · intro node script asarFilePath patchFilePath fs fs0 fs1 hasar hjson hdir hext
    refine ⟨?_, ?_⟩
    · intro hpkg
      simp only [main, hasar, hjson, hdir, hext, hpkg]
      simp
    · intro hpkg
      refine ⟨?_, ?_⟩
      · intro hraise
        simp only [main, hasar, hjson, hdir, hext, hpkg, hraise]
        simp
      · intro packageData hpackage
        refine ⟨?_, ?_⟩
        · intro hraise
          simp only [main, hasar, hjson, hdir, hext, hpkg, hpackage, hraise]
          simp
        · intro hmissing
          have hnull := habsent fs1 patchFilePath hmissing
          simp only [main, hasar, hjson, hdir, hext, hpkg, hpackage, hnull]
          simp [truthy]

/-- Witness for C7: in the demo world the malformed patch file makes the load
raise and `main` ends by raising with the extracted state. -/
theorem parseJSONFile_and_load_failures_witness :
    main demoHost demoArgv (demoFS "\x7b".toList) =
      ⟨Status.raised, [log "INFO" "Extracting .asar file."], demoFS1 "\x7b".toList⟩ :=
  (((parseJSONFile_and_load_failures demoHost).2.2.2 "node".toList "gitkraked.js".toList
    "app.asar".toList "patch.json".toList (demoFS "\x7b".toList) (demoFS0 "\x7b".toList)
    (demoFS1 "\x7b".toList) (by decide) (by decide) rfl rfl).2 (by decide)).2
    (JVal.obj [("version".toList, JVal.str "1.0".toList)]) rfl |>.1 rfl

/-- C5 as stated fails: a patch may name the container itself. In the demo
world the first patch prepends `x` to `../app.asar` and the second names a
missing file; the run stops with `Failed to apply patches.`, nothing is
renamed, but the file at the container's path no longer has the content it
had before the run. -/
theorem container_changed_by_failed_run :
    readFileSync (demoFS patchTextContainerThenMissing) "app.asar".toList
      = some "ORIGINAL".toList ∧
    (applyPatches (extractPathOf "app.asar".toList) [patchContainer, patchMissing]
      (demoFS1 patchTextContainerThenMissing)).completion = Completion.returned false ∧
    (main demoHost demoArgv (demoFS patchTextContainerThenMissing)).logs
      = [log "INFO" "Extracting .asar file.", log "INFO" "Applying patches.",
          log "ERROR" "Failed to apply patches."] ∧
    readFileSync (main demoHost demoArgv (demoFS patchTextContainerThenMissing)).fs
      "app.asar".toList = some "xORIGINAL".toList ∧
    existsSync (main demoHost demoArgv (demoFS patchTextContainerThenMissing)).fs
      "app.asar.old".toList = false := by
  decide

/-- C5 (amended): in every run of `main` in which `applyPatches` returns
`false`, the run stops with the `Failed to apply patches.` error and the
filesystem is exactly as `applyPatches` left it, so the container is not
renamed and the codec's create step is not invoked. When no patch of the list
targets the container's own path, the file at `archivePath` is the same, with
the same content, as after the extraction (and as before the run, when the
extraction left it as it was). -/
theorem main_patch_failure (h : Host) (node script asarFilePath patchFilePath : Str)
    (fs fs0 fs1 : FS) (packageData patchData : JVal) (patches : List Patch)
    (hasar : isFileType asarFilePath dotAsar = true)
    (hjson : isFileType patchFilePath dotJson = true)
    (hdir : ensureDir fs (extractPathOf asarFilePath) = some fs0)
    (hext : h.extractAll fs0 asarFilePath (extractPathOf asarFilePath) = (fs1, true))
    (hpkg : existsSync fs1 (join (extractPathOf asarFilePath) packageJson) = true)
    (hpackage : parseJSONFile h fs1 (join (extractPathOf asarFilePath) packageJson)
      = some packageData)
    (hpatch : parseJSONFile h fs1 patchFilePath = some patchData)
    (htruthy1 : truthy packageData = true) (htruthy2 : truthy patchData = true)
    (hversion : strictEq (getProp packageData "version".toList)
      (getProp patchData "version".toList) = true)
    (hentries : patchEntries (getProp patchData "patches".toList)
      = PatchEntries.entries patches)
    (hfail : (applyPatches (extractPathOf asarFilePath) patches fs1).completion
      = Completion.returned false) :
    main h [node, script, asarFilePath, patchFilePath] fs =
      ⟨Status.returned,
        [log "INFO" "Extracting .asar file.", log "INFO" "Applying patches.",
          log "ERROR" "Failed to apply patches."],
        (applyPatches (extractPathOf asarFilePath) patches fs1).fs⟩ ∧
    (∀ q : Str, existsSync (main h [node, script, asarFilePath, patchFilePath] fs).fs q
      = existsSync fs1 q) ∧
    ((∀ p ∈ patches, resolve fs1.cwd asarFilePath
        ≠ resolve fs1.cwd (join (extractPathOf asarFilePath) p.file)) →
      (main h [node, script, asarFilePath, patchFilePath] fs).fs.lookup asarFilePath
          = fs1.lookup asarFilePath ∧
        (fs1.lookup asarFilePath = fs.lookup asarFilePath →
          (main h [node, script, asarFilePath, patchFilePath] fs).fs.lookup asarFilePath
            = fs.lookup asarFilePath)) := by
  have hversion2 : strictEq (getProp packageData ['v', 'e', 'r', 's', 'i', 'o', 'n'])
      (getProp patchData ['v', 'e', 'r', 's', 'i', 'o', 'n']) = true := hversion
  have hentries2 : patchEntries (getProp patchData ['p', 'a', 't', 'c', 'h', 'e', 's'])
      = PatchEntries.entries patches := hentries
  have hmain : main h [node, script, asarFilePath, patchFilePath] fs =
      ⟨Status.returned,
        [log "INFO" "Extracting .asar file.", log "INFO" "Applying patches.",
          log "ERROR" "Failed to apply patches."],
        (applyPatches (extractPathOf asarFilePath) patches fs1).fs⟩ := by
    simp only [main, hasar, hjson, hdir, hext, hpkg, hpackage, hpatch, htruthy1, htruthy2,
      hversion2, hentries2]
    generalize hrun : applyPatches (extractPathOf asarFilePath) patches fs1 = run at hfail ⊢
    obtain ⟨c, fs2⟩ := run
    simp only at hfail
    subst hfail
    simp
  refine ⟨hmain, ?_, ?_⟩
  · intro q
    rw [hmain]
    exact applyPatches_existsSync (extractPathOf asarFilePath) patches fs1 q
  · intro hnot
    rw [hmain]
    have h1 := applyPatches_lookup_of_not_target (extractPathOf asarFilePath) patches fs1
      asarFilePath hnot
    exact ⟨h1, fun hkept => h1.trans hkept⟩

/-- Witness for C5: in the demo world the second patch names a missing file. -/
theorem main_patch_failure_witness :
    (main demoHost demoArgv (demoFS patchTextThenMissing)).fs.lookup "app.asar".toList
      = (demoFS1 patchTextThenMissing).lookup "app.asar".toList :=
  ((main_patch_failure demoHost "node".toList "gitkraked.js".toList "app.asar".toList
    "patch.json".toList (demoFS patchTextThenMissing) (demoFS0 patchTextThenMissing)
    (demoFS1 patchTextThenMissing)
    (JVal.obj [("version".toList, JVal.str "1.0".toList)])
    (descriptor "1.0".toList [patchXY, patchMissing]) [patchXY, patchMissing]
    (by decide) (by decide) rfl rfl (by decide) rfl rfl (by decide) (by decide) (by decide)
    rfl (by decide)).2.2 (by decide)).1

/-- C8 as stated fails: `isFileType` is not "ends in the extension". The path
`.asar` ends in `.asar` but is rejected (a leading dot makes a hidden file
with no extension), and `app.asar/` does not end in `.asar` but is accepted
(trailing separators are ignored). -/
theorem isFileType_not_suffix_test :
    dotAsar <:+ toLowerCase ".asar".toList ∧ isFileType ".asar".toList dotAsar = false ∧
    ¬ dotAsar <:+ toLowerCase "app.asar/".toList ∧
    isFileType "app.asar/".toList dotAsar = true := by
  decide

/-- C8 (amended): `isFileType(p, '.asar')` is true iff `p` is a non-empty stem
that does not end in `/`, followed by a string equal to `.asar` up to letter
case, followed by `/` characters only; likewise for `.json`. `main` goes past
argument validation exactly when both checks are true: then the run either
raises while creating the workspace, having logged nothing, or its first log
line is the extraction notice; otherwise it logs the matching error and
returns with the filesystem untouched. -/
theorem isFileType_and_argument_validation :
    (∀ p : Str, isFileType p dotAsar = true ↔
      ∃ q e sl : Str, p = q ++ e ++ sl ∧ (∀ c ∈ sl, c = '/') ∧
        toLowerCase e = dotAsar ∧ q ≠ [] ∧ q.getLast? ≠ some '/') ∧
    (∀ p : Str, isFileType p dotJson = true ↔
      ∃ q e sl : Str, p = q ++ e ++ sl ∧ (∀ c ∈ sl, c = '/') ∧
        toLowerCase e = dotJson ∧ q ≠ [] ∧ q.getLast? ≠ some '/') ∧
    ∀ (h : Host) (node script asarFilePath patchFilePath : Str) (fs : FS),
      (isFileType asarFilePath dotAsar = false →
        main h [node, script, asarFilePath, patchFilePath] fs =
          ⟨Status.returned, [log "ERROR" "The first argument must be an .asar file."], fs⟩) ∧
      (isFileType asarFilePath dotAsar = true → isFileType patchFilePath dotJson = false →
        main h [node, script, asarFilePath, patchFilePath] fs =
          ⟨Status.returned, [log "ERROR" "The second argument must be a .json file."], fs⟩) ∧
      (isFileType asarFilePath dotAsar = true → isFileType patchFilePath dotJson = true →
        (ensureDir fs (extractPathOf asarFilePath) = none ∧
          main h [node, script, asarFilePath, patchFilePath] fs = ⟨Status.raised, [], fs⟩) ∨
        (main h [node, script, asarFilePath, patchFilePath] fs).logs.head?
          = some (log "INFO" "Extracting .asar file.")) := by
  refine ⟨fun p => isFileType_iff p _ (by decide) (by decide) (by decide),
    fun p => isFileType_iff p _ (by decide) (by decide) (by decide), ?_⟩
  intro h node script asarFilePath patchFilePath fs
  refine ⟨?_, ?_, ?_⟩
  · intro hasar
    simp [main, hasar]
  · intro hasar hjson
    simp [main, hasar, hjson]
  · intro hasar hjson
    cases hdir : ensureDir fs (extractPathOf asarFilePath) with
    | none =>
      left
      refine ⟨rfl, ?_⟩
      simp [main, hasar, hjson, hdir]
    | some fs0 =>
      right
      simp only [main, hasar, hjson, hdir, Bool.not_true, Bool.false_eq_true, if_false]
      repeat (any_goals split)
      all_goals simp

/-- Witness for C8: the demo command line passes both checks and the run
starts with the extraction notice. -/
theorem isFileType_and_argument_validation_witness :
    (ensureDir (demoFS patchTextOne) (extractPathOf "app.asar".toList) = none ∧
      main demoHost ["node".toList, "gitkraked.js".toList, "app.asar".toList,
        "patch.json".toList] (demoFS patchTextOne) =
        ⟨Status.raised, [], demoFS patchTextOne⟩) ∨
    (main demoHost ["node".toList, "gitkraked.js".toList, "app.asar".toList,
      "patch.json".toList] (demoFS patchTextOne)).logs.head?
      = some (log "INFO" "Extracting .asar file.") :=
  (isFileType_and_argument_validation.2.2 demoHost "node".toList "gitkraked.js".toList
    "app.asar".toList "patch.json".toList (demoFS patchTextOne)).2.2 (by decide) (by decide)

/-- C1 as stated fails: a patch may name the container itself. In the demo
world the version matches and the only patch, on `../app.asar` with the empty
find string, has an existing target that contains its find string; the run
reaches the success report, but the file at `app.asar.old` holds `xORIGINAL`,
not the `ORIGINAL` that was at `app.asar` before the run. -/
theorem backup_differs_when_patch_targets_container :
    isFileType "app.asar".toList dotAsar = true ∧
    isFileType "patch.json".toList dotJson = true ∧
    existsSync (demoFS1 patchTextContainer)
      (join (extractPathOf "app.asar".toList) packageJson) = true ∧
    patchPasses (extractPathOf "app.asar".toList) patchContainer
      (demoFS1 patchTextContainer) = true ∧
    (main demoHost demoArgv (demoFS patchTextContainer)).status = Status.returned ∧
    (main demoHost demoArgv (demoFS patchTextContainer)).logs
      = [log "INFO" "Extracting .asar file.", log "INFO" "Applying patches.",
          log "SUCCESS" "Applied 1 patches.", log "INFO" "Cleaning up.",
          log "SUCCESS" "Done!"] ∧
    readFileSync (demoFS patchTextContainer) "app.asar".toList = some "ORIGINAL".toList ∧
    readFileSync (main demoHost demoArgv (demoFS patchTextContainer)).fs
      "app.asar.old".toList = some "xORIGINAL".toList := by
  decide

/-- C1 (amended): take a run of `main` with two arguments that pass the
extension checks, where the extraction completes, `package.json` exists in
the workspace, both JSON files load, the versions are equal and every patch's
target file exists and contains its find string when its turn comes. If
moreover no patch targets the container's own path, the extraction left the
container as it was, and the rename and the codec's create step complete,
the create step leaving the backup alone, then: the run reaches the success
report; the create step ran on the state in which the container had already
been moved to `<archivePath>.old`; at the end `<archivePath>.old` holds
exactly the content the container had before the run; and the file at
`archivePath` is what the codec's create step, applied to the workspace as
left by `applyPatches`, put there. -/
theorem main_success (h : Host) (node script asarFilePath patchFilePath : Str)
    (fs fs0 fs1 fs3 fs4 : FS) (packageData patchData : JVal) (patches : List Patch)
    (content : Str)
    (hasar : isFileType asarFilePath dotAsar = true)
    (hjson : isFileType patchFilePath dotJson = true)
    (hdir : ensureDir fs (extractPathOf asarFilePath) = some fs0)
    (hext : h.extractAll fs0 asarFilePath (extractPathOf asarFilePath) = (fs1, true))
    (hpkg : existsSync fs1 (join (extractPathOf asarFilePath) packageJson) = true)
    (hpackage : parseJSONFile h fs1 (join (extractPathOf asarFilePath) packageJson)
      = some packageData)
    (hpatch : parseJSONFile h fs1 patchFilePath = some patchData)
    (htruthy1 : truthy packageData = true) (htruthy2 : truthy patchData = true)
    (hversion : strictEq (getProp packageData "version".toList)
      (getProp patchData "version".toList) = true)
    (hentries : patchEntries (getProp patchData "patches".toList)
      = PatchEntries.entries patches)
    (hpass : ∀ j (hj : j < patches.length),
      patchPasses (extractPathOf asarFilePath) (patches.get ⟨j, hj⟩)
        (applyPatches (extractPathOf asarFilePath) (patches.take j) fs1).fs = true)
    (horig : readFileSync fs asarFilePath = some content)
    (hkept : readFileSync fs1 asarFilePath = some content)
    (hnot : ∀ p ∈ patches, resolve fs1.cwd asarFilePath
      ≠ resolve fs1.cwd (join (extractPathOf asarFilePath) p.file))
    (hrename : renameSync (applyPatches (extractPathOf asarFilePath) patches fs1).fs
      asarFilePath (asarFilePath ++ dotOld) = some fs3)
    (hcreate : h.createPackage fs3 (extractPathOf asarFilePath) asarFilePath = (fs4, true))
    (hbackup : fs4.lookup (asarFilePath ++ dotOld) = fs3.lookup (asarFilePath ++ dotOld)) :
    main h [node, script, asarFilePath, patchFilePath] fs =
      ⟨Status.returned,
        [log "INFO" "Extracting .asar file.", log "INFO" "Applying patches.",
          log "SUCCESS" ("Applied " ++ toString patches.length ++ " patches."),
          log "INFO" "Cleaning up.", log "SUCCESS" "Done!"],
        rmSync fs4 (extractPathOf asarFilePath)⟩ ∧
    (fs3.lookup asarFilePath = none ∧
      readFileSync fs3 (asarFilePath ++ dotOld) = some content) ∧
    (readFileSync (main h [node, script, asarFilePath, patchFilePath] fs).fs
      (asarFilePath ++ dotOld) = some content ∧
      readFileSync (main h [node, script, asarFilePath, patchFilePath] fs).fs
        (asarFilePath ++ dotOld) = readFileSync fs asarFilePath) ∧
    (main h [node, script, asarFilePath, patchFilePath] fs).fs.lookup asarFilePath
      = fs4.lookup asarFilePath := by
  have hversion2 : strictEq (getProp packageData ['v', 'e', 'r', 's', 'i', 'o', 'n'])
      (getProp patchData ['v', 'e', 'r', 's', 'i', 'o', 'n']) = true := hversion
  have hentries2 : patchEntries (getProp patchData ['p', 'a', 't', 'c', 'h', 'e', 's'])
      = PatchEntries.entries patches := hentries
  have htrue : (applyPatches (extractPathOf asarFilePath) patches fs1).completion
      = Completion.returned true :=
    (applyPatches_true_iff (extractPathOf asarFilePath) patches fs1).mpr hpass
  have hmain : main h [node, script, asarFilePath, patchFilePath] fs =
      ⟨Status.returned,
        [log "INFO" "Extracting .asar file.", log "INFO" "Applying patches.",
          log "SUCCESS" ("Applied " ++ toString patches.length ++ " patches."),
          log "INFO" "Cleaning up.", log "SUCCESS" "Done!"],
        rmSync fs4 (extractPathOf asarFilePath)⟩ := by
    simp only [main, hasar, hjson, hdir, hext, hpkg, hpackage, hpatch, htruthy1, htruthy2,
      hversion2, hentries2]
    generalize hrun : applyPatches (extractPathOf asarFilePath) patches fs1 = run
      at htrue hrename ⊢
    obtain ⟨c, fs2⟩ := run
    simp only at htrue hrename
    subst htrue
    simp [hrename, hcreate]
  -- the container in the patched state
  have hl2 : (applyPatches (extractPathOf asarFilePath) patches fs1).fs.lookup asarFilePath
      = some (Entry.file content) := by
    rw [applyPatches_lookup_of_not_target (extractPathOf asarFilePath) patches fs1
      asarFilePath hnot]
    exact readFileSync_eq_some.mp hkept
  have hane : asarFilePath ≠ [] := lookup_ne_nil hl2
  have holdne : asarFilePath ++ dotOld ≠ [] := by simp [hane]
  -- what the rename produced
  generalize (applyPatches (extractPathOf asarFilePath) patches fs1).fs = fs2 at hl2 hrename
  have hfs3 : fs3 = (fs2.set (resolve fs2.cwd asarFilePath) none).set
      (resolve fs2.cwd (asarFilePath ++ dotOld)) (some (Entry.file content)) := by
    unfold renameSync at hrename
    simp only [hl2] at hrename
    split_ifs at hrename
    exact (Option.some.inj hrename).symm
  obtain ⟨-, hres, hold⟩ := resolve_container fs2.cwd asarFilePath hasar
  have hdiff : resolve fs2.cwd asarFilePath ≠ resolve fs2.cwd (asarFilePath ++ dotOld) := by
    rw [hres]
    rcases hold with hold | hold
    · rw [hold]
      intro heq
      have := congrArg List.length (List.cons.inj heq).1
      simp [dotOld] at this
    · rw [hold]
      intro heq
      have := congrArg List.length heq
      simp at this
  have h3a : fs3.lookup asarFilePath = none := by
    rw [hfs3]
    simp [FS.lookup, hane, FS.set, hdiff]
  have h3old : fs3.lookup (asarFilePath ++ dotOld) = some (Entry.file content) := by
    rw [hfs3]
    simp [FS.lookup, holdne, FS.set]
  obtain ⟨hapart1, hapart2⟩ := workspace_apart fs4.cwd asarFilePath hasar
  have hrm : ∀ q : Str, ¬ resolve fs4.cwd (extractPathOf asarFilePath) <:+ resolve fs4.cwd q →
      (rmSync fs4 (extractPathOf asarFilePath)).lookup q = fs4.lookup q := by
    intro q hq
    unfold rmSync
    split_ifs with hnil
    · rfl
    · simp [FS.lookup, hq]
  have hfinal : readFileSync (rmSync fs4 (extractPathOf asarFilePath))
      (asarFilePath ++ dotOld) = some content := by
    rw [readFileSync_eq_some, hrm _ hapart2, hbackup]
    exact h3old
  refine ⟨hmain, ⟨h3a, readFileSync_eq_some.mpr h3old⟩, ?_, ?_⟩
  · rw [hmain]
    exact ⟨hfinal, hfinal.trans horig.symm⟩
  · rw [hmain]
    exact hrm _ hapart1

/-- Witness for C1: the demo run with the patch `X -> Y` on `a.js`; the backup
holds the original container. -/
theorem main_success_witness :
    readFileSync (main demoHost demoArgv (demoFS patchTextOne)).fs
      ("app.asar".toList ++ dotOld) = some "ORIGINAL".toList :=
  (main_success demoHost "node".toList "gitkraked.js".toList "app.asar".toList
    "patch.json".toList (demoFS patchTextOne) (demoFS0 patchTextOne) (demoFS1 patchTextOne)
    demoFS3 demoFS4 (JVal.obj [("version".toList, JVal.str "1.0".toList)])
    (descriptor "1.0".toList [patchXY]) [patchXY] "ORIGINAL".toList
    (by decide) (by decide) rfl rfl (by decide) rfl rfl (by decide) (by decide) (by decide)
    rfl (by decide) (by decide) (by decide) (by decide) rfl rfl (by decide)).2.2.1.1

end GitKraked
